import Mathlib

/-!
# Verification of the safety-weighted routing core

A shallow embedding, in Lean 4, of the route-graph construction and
shortest-path engine of the repository (files `Final_Product/map.js`,
`Final_Product/routing.js`, and the configuration tables of the unnamed
source file containing `neighborhoodSafetyFactors` and
`neighborhoodPolygons`), together with theorems settling the frozen
claims about it.

Modelling conventions:
* JavaScript numbers are modelled as exact rationals (`ℚ`); the integer
  crime scores as `ℤ`; node identifiers as `ℕ`.
* The transcendental primitives `Math.sin`, `Math.cos`, `Math.sqrt`,
  `Math.atan2` and the constant `Math.PI`, as well as the Turf.js
  point-in-polygon test, are external library calls; they are modelled
  as parameters (`TrigOracle`, `PiP`): every theorem below is proved
  for an arbitrary deterministic oracle, hence holds in particular for
  the real library functions.
* `Infinity` (used by the Dijkstra solver) is modelled as `none` in
  `Option ℚ`; the JavaScript comparisons `x < Infinity` (true for
  finite `x`) and `Infinity < y` (false) are mirrored exactly by the
  explicit `Option` matches in the definitions.
* The JavaScript objects `distances`, `previous`, `osmNodes`, `nodeMap`
  are finite maps; they are modelled as total functions into `Option`.
-/

/-- The external numeric primitives used by the source
(`Math.sin`, `Math.cos`, `Math.sqrt`, `Math.atan2`, `Math.PI`).
They are opaque deterministic functions as far as the source is
concerned, so all theorems quantify over an arbitrary oracle. -/
structure TrigOracle where
  sin : ℚ → ℚ
  cos : ℚ → ℚ
  sqrt : ℚ → ℚ
  atan2 : ℚ → ℚ → ℚ
  pi : ℚ

/-- The external Turf.js `booleanPointInPolygon` test: it receives the
point (as the `[lng, lat]` pair built by `getNeighborhoodForPoint`) and
the polygon coordinate rings of one feature. -/
abbrev PiP : Type := (ℚ × ℚ) → List (List (ℚ × ℚ)) → Bool

/-- The `neighborhoodSafetyFactors` table of the configuration source file. -/
def neighborhoodSafetyFactors : List (String × ℚ) :=
  [("Yale Campus", 0.25),
   ("Westville", 0.30),
   ("Wooster Square", 0.32),
   ("East Rock", 0.35),
   ("Downtown", 1.0),
   ("The Hill", 1.4),
   ("Fair Haven", 1.5),
   ("Dwight", 1.6),
   ("Newhallville", 1.8),
   ("default", 1.0)]

/-- The `neighborhoodPolygons` GeoJSON table of the configuration source
file, reduced to what the code reads from it: each feature's
`properties.name` and `geometry.coordinates` (a list of rings of
`[lng, lat]` pairs), in source order. -/
def neighborhoodPolygons : List (String × List (List (ℚ × ℚ))) :=
  [("Yale Campus",
    [[(-72.9320, 41.3050), (-72.9320, 41.3110),
      (-72.9240, 41.3110), (-72.9240, 41.3050),
      (-72.9320, 41.3050)]]),
   ("East Rock",
    [[(-72.9280, 41.3110), (-72.9280, 41.3180),
      (-72.9180, 41.3180), (-72.9180, 41.3110),
      (-72.9280, 41.3110)]]),
   ("Westville",
    [[(-72.9450, 41.3050), (-72.9450, 41.3130),
      (-72.9320, 41.3130), (-72.9320, 41.3050),
      (-72.9450, 41.3050)]]),
   ("Wooster Square",
    [[(-72.9200, 41.3020), (-72.9200, 41.3100),
      (-72.9100, 41.3100), (-72.9100, 41.3020),
      (-72.9200, 41.3020)]]),
   ("The Hill",
    [[(-72.9400, 41.2980), (-72.9400, 41.3050),
      (-72.9280, 41.3050), (-72.9280, 41.2980),
      (-72.9400, 41.2980)]]),
   ("Dwight",
    [[(-72.9500, 41.3050), (-72.9500, 41.3120),
      (-72.9450, 41.3120), (-72.9450, 41.3050),
      (-72.9500, 41.3050)]]),
   ("Downtown",
    [[(-72.9320, 41.3050), (-72.9320, 41.3110),
      (-72.9240, 41.3110), (-72.9240, 41.3050),
      (-72.9320, 41.3050)]])]

/-- Function `getNeighborhoodForPoint` of `map.js` (lines 38–49): iterate the
feature list in order, return the name of the first feature whose
polygon contains the point `[lng, lat]`, else `"default"`. -/
def getNeighborhoodForPoint (pip : PiP) (lat lng : ℚ) : String :=
  match neighborhoodPolygons.find? (fun f => pip (lng, lat) f.2) with
  | some f => f.1
  | none => "default"

/-- The `neighborhoodSafetyFactors[neighborhood] || neighborhoodSafetyFactors.default`
lookup inside `getCrimeLevel`.  All stored factors are non-zero, so the
JavaScript `||` fallback coincides with a plain default on a missing key. -/
def lookupSafetyFactor (neighborhood : String) : ℚ :=
  (neighborhoodSafetyFactors.lookup neighborhood).getD 1.0

/-- Function `getCrimeLevel` of `map.js` (lines 57–71): deterministic crime score
from neighborhood and a coordinate hash.  `Math.abs` is `|·|`,
`Math.floor` is `Int.floor`. -/
def getCrimeLevel (t : TrigOracle) (pip : PiP) (lat lng : ℚ) : ℤ :=
  let neighborhood := getNeighborhoodForPoint pip lat lng
  let safeFactor := lookupSafetyFactor neighborhood
  let hash := |t.sin (lat * 1000) * t.cos (lng * 1000)|
  let pseudoRandom := hash - (⌊hash⌋ : ℚ)
  let baseCrime := ⌊pseudoRandom * 8 * safeFactor⌋
  min 14 baseCrime

/-- Function `getDistance` of `map.js` (lines 147–156): the Haversine formula
with Earth radius 6371 km, written over the numeric oracle. -/
def getDistance (t : TrigOracle) (lat1 lng1 lat2 lng2 : ℚ) : ℚ :=
  let R : ℚ := 6371
  let dLat := (lat2 - lat1) * t.pi / 180
  let dLng := (lng2 - lng1) * t.pi / 180
  let a := t.sin (dLat / 2) * t.sin (dLat / 2) +
    t.cos (lat1 * t.pi / 180) * t.cos (lat2 * t.pi / 180) *
    t.sin (dLng / 2) * t.sin (dLng / 2)
  let c := 2 * t.atan2 (t.sqrt a) (t.sqrt (1 - a))
  R * c

/-- A graph vertex as built by `loadStreetData`:
`{ id, lat, lng, osmId }`. -/
structure Node where
  id : ℕ
  lat : ℚ
  lng : ℚ
  osmId : ℕ
deriving DecidableEq, Repr

/-- A graph edge as built by `loadStreetData`:
`{ from, to, crimes, weight, wayId, streetName, neighborhood }`
(`from` is a Lean keyword, hence the field name `from_`). -/
structure Edge where
  from_ : ℕ
  to_ : ℕ
  crimes : ℤ
  weight : ℚ
  wayId : ℕ
  streetName : String
  neighborhood : String
deriving DecidableEq, Repr

/-- The graph object `{ nodes: [], edges: [] }` of `map.js`. -/
structure Graph where
  nodes : List Node
  edges : List Edge
deriving DecidableEq, Repr

/-- One raw way as collected by the second pass of `loadStreetData`:
`{ id, nodes, tags }`, with `tags` reduced to the only field read from
it (`tags.name`, possibly absent). -/
structure Way where
  id : ℕ
  nodes : List ℕ
  name : Option String
deriving DecidableEq, Repr

/-- One entry of the `osmNodes` map: `{ lat, lon }`. -/
structure OsmCoord where
  lat : ℚ
  lon : ℚ
deriving DecidableEq, Repr

/-- Function `findNearestNode` of `map.js` (lines 164–177): linear scan keeping
the strictly closest node seen so far (`dist < minDist`, with `minDist`
starting at `Infinity`, so the first node is always taken). -/
def findNearestNode (t : TrigOracle) (g : Graph) (lat lng : ℚ) : Option Node :=
  (g.nodes.foldl
    (fun (acc : Option (Node × ℚ)) node =>
      let dist := getDistance t lat lng node.lat node.lng
      match acc with
      | none => some (node, dist)
      | some (bestNode, minDist) =>
        if dist < minDist then some (node, dist) else some (bestNode, minDist))
    none).map (·.1)

/-- State of the node-building pass of `loadStreetData`
(lines 236–254): the `graph.nodes` array, the OSM-id → node-id `nodeMap`
and the `nodeIdCounter`. -/
structure BuildState where
  nodes : List Node
  nodeMap : ℕ → Option ℕ
  counter : ℕ

/-- One step of the node-building pass, for one OSM node id occurring in
a way: add a fresh node exactly when the id is not yet in `nodeMap` and
`osmNodes` knows its coordinates. -/
def buildNodeStep (osmNodes : ℕ → Option OsmCoord) (st : BuildState) (osmNodeId : ℕ) :
    BuildState :=
  match st.nodeMap osmNodeId, osmNodes osmNodeId with
  | none, some c =>
    { nodes := st.nodes ++ [{ id := st.counter, lat := c.lat, lng := c.lon, osmId := osmNodeId }],
      nodeMap := fun k => if k = osmNodeId then some st.counter else st.nodeMap k,
      counter := st.counter + 1 }
  | _, _ => st

/-- The node-building pass of `loadStreetData` (lines 236–254). -/
def buildNodes (osmNodes : ℕ → Option OsmCoord) (ways : List Way) : BuildState :=
  ways.foldl (fun st way => way.nodes.foldl (buildNodeStep osmNodes) st)
    { nodes := [], nodeMap := fun _ => none, counter := 0 }

/-- The edges contributed by one way in the edge-building pass of
`loadStreetData` (lines 256–285).  A consecutive pair is skipped when
either endpoint is missing from `osmNodes` (the `continue`).  The
`nodeMap.get` and `graph.nodes[...]` lookups always succeed for pairs
that survive the `osmNodes` check (proved below as
`buildNodes_map_total` and `buildNodes_map_lt`), so the `none` fallbacks
of the two inner matches are unreachable. -/
def buildWayEdges (t : TrigOracle) (pip : PiP) (nodes : List Node)
    (nodeMap : ℕ → Option ℕ) (osmNodes : ℕ → Option OsmCoord) (way : Way) : List Edge :=
  (way.nodes.zip way.nodes.tail).filterMap (fun (fromOsmId, toOsmId) =>
    match osmNodes fromOsmId, osmNodes toOsmId with
    | some _, some _ =>
      match nodeMap fromOsmId, nodeMap toOsmId with
      | some fromId, some toId =>
        match nodes.get? fromId, nodes.get? toId with
        | some fromNode, some toNode =>
          let midLat := (fromNode.lat + toNode.lat) / 2
          let midLng := (fromNode.lng + toNode.lng) / 2
          let crimes := getCrimeLevel t pip midLat midLng
          let distance := getDistance t fromNode.lat fromNode.lng toNode.lat toNode.lng
          some { from_ := fromId, to_ := toId, crimes := crimes,
                 weight := (crimes : ℚ) + distance * 100,
                 wayId := way.id,
                 streetName := way.name.getD "Unnamed Street",
                 neighborhood := getNeighborhoodForPoint pip midLat midLng }
        | _, _ => none
      | _, _ => none
    | _, _ => none)

/-- The pure core of `loadStreetData` (`map.js` lines 236–286): from the
`osmNodes` map and the collected `ways`, build the graph.  The
surrounding fetch, DOM and visualization statements are external
collaborators and are not part of the graph construction. -/
def loadStreetData (t : TrigOracle) (pip : PiP) (osmNodes : ℕ → Option OsmCoord)
    (ways : List Way) : Graph :=
  let st := buildNodes osmNodes ways
  { nodes := st.nodes,
    edges := ways.foldl
      (fun es way => es ++ buildWayEdges t pip st.nodes st.nodeMap osmNodes way) [] }

/-- Insertion into a JavaScript `Set` (insertion-ordered, first
occurrence kept). -/
def addUnique (s : List ℕ) (i : ℕ) : List ℕ :=
  if i ∈ s then s else s ++ [i]

/-- The contents of a JavaScript `Set` filled by iterating a list. -/
def dedupFirst (l : List ℕ) : List ℕ :=
  l.foldl addUnique []

/-- The `unvisited` set as initialized by `dijkstra`
(`routing.js` lines 15–19): the node ids in `graph.nodes` order. -/
def initUnvisited (g : Graph) : List ℕ :=
  dedupFirst (g.nodes.map Node.id)

/-- One step of the minimum search of `dijkstra` (lines 28–33):
`if (distances[nodeId] < minDist) { minDist = ...; currentNode = ... }`,
with `minDist` starting at `Infinity` (`none`) and a missing entry never
winning (`Infinity < x` is false). -/
def minStep (dist : ℕ → Option ℚ) (acc : Option ℕ × Option ℚ) (nodeId : ℕ) :
    Option ℕ × Option ℚ :=
  match dist nodeId, acc.2 with
  | some d, some m => if d < m then (some nodeId, some d) else acc
  | some d, none => (some nodeId, some d)
  | none, _ => acc

/-- The unvisited node of minimum tentative distance
(`dijkstra`, lines 24–33). -/
def findMinNode (dist : ℕ → Option ℚ) (unvisited : List ℕ) : Option ℕ :=
  (unvisited.foldl (minStep dist) (none, none)).1

/-- Relaxation of a single edge from `currentNode`
(`dijkstra`, lines 41–60).  `neighbor` is determined exactly as in the
source; `alt = distances[currentNode] + weight` with `Infinity`
arithmetic mirrored by the `Option` matches (`Infinity + w < x` is
always false, and `alt < Infinity` is always true for finite `alt`). -/
def relaxStep (edges_current : ℕ) (unvisited : List ℕ)
    (dp : (ℕ → Option ℚ) × (ℕ → Option ℕ)) (edge : Edge) :
    (ℕ → Option ℚ) × (ℕ → Option ℕ) :=
  let neighbor : Option ℕ :=
    if edge.from_ = edges_current then some edge.to_
    else if edge.to_ = edges_current then some edge.from_
    else none
  match neighbor with
  | none => dp
  | some nb =>
    if nb ∈ unvisited then
      match dp.1 edges_current, dp.1 nb with
      | some dc, some dn =>
        if dc + edge.weight < dn then
          (fun k => if k = nb then some (dc + edge.weight) else dp.1 k,
           fun k => if k = nb then some edges_current else dp.2 k)
        else dp
      | some dc, none =>
        (fun k => if k = nb then some (dc + edge.weight) else dp.1 k,
         fun k => if k = nb then some edges_current else dp.2 k)
      | none, _ => dp
    else dp

/-- The full relaxation sweep over `graph.edges` (lines 41–60). -/
def relaxAll (edges : List Edge) (current : ℕ) (unvisited : List ℕ)
    (dp : (ℕ → Option ℚ) × (ℕ → Option ℕ)) : (ℕ → Option ℚ) × (ℕ → Option ℕ) :=
  edges.foldl (relaxStep current unvisited) dp

/-- The main loop of `dijkstra` (lines 23–61), with early exit at the
destination.  The `while (unvisited.size > 0)` loop removes one element
of `unvisited` per iteration, so running it with `fuel = unvisited.length`
is exact: the fuel can only run out when the set is already empty (all
lemmas below carry the hypothesis `fuel = unvisited.length`). -/
def dijkstraLoop (g : Graph) (endNodeId : ℕ) :
    ℕ → List ℕ → (ℕ → Option ℚ) → (ℕ → Option ℕ) →
    (ℕ → Option ℚ) × (ℕ → Option ℕ)
  | 0, _, d, p => (d, p)
  | fuel + 1, unvisited, d, p =>
    if unvisited.isEmpty then (d, p)
    else
      match findMinNode d unvisited with
      | none => (d, p)
      | some current =>
        if current = endNodeId then (d, p)
        else
          let dp := relaxAll g.edges current (unvisited.erase current) (d, p)
          dijkstraLoop g endNodeId fuel (unvisited.erase current) dp.1 dp.2

/-- The same loop run to exhaustion of the unvisited set: the early-exit
test `currentNode === endNodeId` removed, everything else unchanged
(the reference implementation for the C8 equivalence claim). -/
def dijkstraLoopFull (g : Graph) :
    ℕ → List ℕ → (ℕ → Option ℚ) → (ℕ → Option ℕ) →
    (ℕ → Option ℚ) × (ℕ → Option ℕ)
  | 0, _, d, p => (d, p)
  | fuel + 1, unvisited, d, p =>
    if unvisited.isEmpty then (d, p)
    else
      match findMinNode d unvisited with
      | none => (d, p)
      | some current =>
        let dp := relaxAll g.edges current (unvisited.erase current) (d, p)
        dijkstraLoopFull g fuel (unvisited.erase current) dp.1 dp.2

/-- Path reconstruction of `dijkstra` (lines 63–69):
`while (current !== null) { path.unshift(current); current = previous[current]; }`.
The `previous` chains produced by the loop are strictly ordered by
settlement time (proved below), hence have at most `g.nodes.length`
steps, so running the walk with that much fuel is exact. -/
def reconstructPathAux (previous : ℕ → Option ℕ) :
    ℕ → ℕ → List ℕ → List ℕ
  | 0, current, acc => current :: acc
  | fuel + 1, current, acc =>
    match previous current with
    | none => current :: acc
    | some pr => reconstructPathAux previous fuel pr (current :: acc)

/-- The `distances` map right after the initialization loop of
`dijkstra` (lines 15–20): every node id at `Infinity`, then the start
at `0` (a missing key behaves as `Infinity` in every read the
algorithm performs). -/
def dijkstraInitDist (startNodeId : ℕ) : ℕ → Option ℚ :=
  fun n => if n = startNodeId then some 0 else none

/-- The `previous` map right after the initialization loop: all `null`. -/
def dijkstraInitPrev : ℕ → Option ℕ := fun _ => none

/-- Function `dijkstra` of `routing.js` (lines 9–72). -/
def dijkstra (g : Graph) (startNodeId endNodeId : ℕ) : Option (List ℕ) :=
  let u := initUnvisited g
  let dp := dijkstraLoop g endNodeId u.length u
    (dijkstraInitDist startNodeId) dijkstraInitPrev
  let path := reconstructPathAux dp.2 g.nodes.length endNodeId []
  if 1 < path.length then some path else none

/-- Function `dijkstra` with the early-exit optimization removed (the loop runs
to exhaustion); initialization and reconstruction unchanged. -/
def dijkstraFull (g : Graph) (startNodeId endNodeId : ℕ) : Option (List ℕ) :=
  let u := initUnvisited g
  let dp := dijkstraLoopFull g u.length u
    (dijkstraInitDist startNodeId) dijkstraInitPrev
  let path := reconstructPathAux dp.2 g.nodes.length endNodeId []
  if 1 < path.length then some path else none

/-- The undirected edge match used by the route aggregator
(`routing.js` lines 133–136) and, as a specification device, to define
path costs. -/
def edgeConnectsB (e : Edge) (a b : ℕ) : Bool :=
  (e.from_ == a && e.to_ == b) || (e.to_ == a && e.from_ == b)

/-- The `graph.edges.find(...)` lookup of the aggregator (lines 133–136). -/
def findEdgeBetween (g : Graph) (a b : ℕ) : Option Edge :=
  g.edges.find? (fun e => edgeConnectsB e a b)

/-- The `totalCrimes` accumulation of `findSafestRoute`
(lines 125–145): sum the `crimes` of the first matching edge of each
consecutive pair, contributing nothing when no edge matches
(`if (edge)`). -/
def totalCrimesOn (g : Graph) (path : List ℕ) : ℤ :=
  (path.zip path.tail).foldl
    (fun acc (pr : ℕ × ℕ) =>
      match findEdgeBetween g pr.1 pr.2 with
      | some e => acc + e.crimes
      | none => acc) 0

/-- The safety-rating step function of `findSafestRoute`
(lines 154–169), applied to `avgCrimes = totalCrimes / (path.length - 1)`. -/
def safetyRatingOfAvg (avgCrimes : ℚ) : String :=
  if avgCrimes ≤ 2 then "Very Safe"
  else if avgCrimes ≤ 5 then "Safe"
  else if avgCrimes ≤ 8 then "Moderate"
  else "Caution Advised"

/-- The mean risk per segment computed by `findSafestRoute` (line 154).
Only evaluated on paths returned by `dijkstra`, which have length ≥ 2. -/
def avgCrimesOn (g : Graph) (path : List ℕ) : ℚ :=
  (totalCrimesOn g path : ℚ) / ((path.length - 1 : ℕ) : ℚ)

/-- The safety classification `findSafestRoute` assigns to a found path. -/
def routeSafetyRating (g : Graph) (path : List ℕ) : String :=
  safetyRatingOfAvg (avgCrimesOn g path)

/-- Outcome of one `findSafestRoute` call (`routing.js` lines 81–177),
keeping the mutually exclusive user-visible alerts apart:
`missingPoints` = 'Please select both start and end points!',
`emptyGraph` = 'Street data not loaded yet. Please wait...',
`noRouteFound` = 'No route found!', and `route` for a drawn route. -/
inductive RouteOutcome where
  | missingPoints : RouteOutcome
  | emptyGraph : RouteOutcome
  | noRouteFound : RouteOutcome
  | route (path : List ℕ) : RouteOutcome
deriving DecidableEq, Repr

/-- The control flow of `findSafestRoute` (lines 81–103): validate the
two endpoints, reject an unloaded (0-node) graph before any nearest-node
or solver work, then run `dijkstra` between the nearest nodes.  For a
non-empty graph `findNearestNode` always returns a node (proved below
as `findNearestNode_isSome`), so the final fallback is unreachable. -/
def findSafestRouteOutcome (t : TrigOracle) (g : Graph)
    (startPoint endPoint : Option (ℚ × ℚ)) : RouteOutcome :=
  match startPoint, endPoint with
  | some sp, some ep =>
    if g.nodes.length = 0 then .emptyGraph
    else
      match findNearestNode t g sp.1 sp.2, findNearestNode t g ep.1 ep.2 with
      | some startNode, some endNode =>
        match dijkstra g startNode.id endNode.id with
        | some path => .route path
        | none => .noRouteFound
      | _, _ => .noRouteFound
  | _, _ => .missingPoints

/-! ## Specification-side notions: walks, paths and their costs -/

/-- Two nodes are connected in `g` when some edge joins them,
in either orientation. -/
def Connected (g : Graph) (a b : ℕ) : Prop :=
  ∃ e ∈ g.edges, edgeConnectsB e a b = true

/-- Minimum of a list of rationals, `none` on the empty list. -/
def minList (l : List ℚ) : Option ℚ :=
  l.foldl (fun acc x =>
    match acc with
    | none => some x
    | some m => some (min m x)) none

/-- The cheapest weight of an edge joining `a` and `b` (the weight the
solver effectively uses for the step `a`–`b`, since it relaxes along
every matching edge). -/
def stepWeight (g : Graph) (a b : ℕ) : Option ℚ :=
  minList ((g.edges.filter (fun e => edgeConnectsB e a b)).map Edge.weight)

/-- Total cost of a node sequence: sum of the cheapest edge weight of
each consecutive step; `none` when some step has no edge. -/
def pathCost (g : Graph) : List ℕ → Option ℚ
  | [] => some 0
  | [_] => some 0
  | a :: b :: rest =>
    match stepWeight g a b, pathCost g (b :: rest) with
    | some w, some c => some (w + c)
    | _, _ => none

/-- A walk in `g` from `x` to `y`: a non-empty sequence of node ids of
`g`, consecutive ones connected by an edge.  A single-node walk
(`x = y`) is allowed. -/
def IsWalk (g : Graph) (x y : ℕ) (w : List ℕ) : Prop :=
  w.head? = some x ∧ w.getLast? = some y ∧
    (∀ z ∈ w, z ∈ g.nodes.map Node.id) ∧ w.Chain' (Connected g)

/-- A path from `s` to `e` in the sense of the specification's data
model: a walk of length at least 2 (the empty/singleton path is not a
valid route). -/
def IsPath (g : Graph) (s e : ℕ) (w : List ℕ) : Prop :=
  IsWalk g s e w ∧ 2 ≤ w.length

/-- The order on tentative distances with `none` playing `Infinity`:
`oLE a b` says that whenever `b` is finite, `a` is finite and at most
`b`. -/
def oLE (a b : Option ℚ) : Prop :=
  ∀ cb, b = some cb → ∃ ca, a = some ca ∧ ca ≤ cb

/-- Strict version of `oLE`: whenever `b` is finite, `a` is finite and
strictly below it (vacuous for `b = Infinity`, matching the JavaScript
update guard `alt < distances[neighbor]`). -/
def oLT (a b : Option ℚ) : Prop :=
  ∀ cb, b = some cb → ∃ ca, a = some ca ∧ ca < cb

/-- The chain of `previous` links read by the path reconstruction:
`PrevChainR p x L` states that following `previous` from `x` until
`null` visits exactly the elements of `L` (ending at `x`). -/
inductive PrevChainR (p : ℕ → Option ℕ) : ℕ → List ℕ → Prop where
  | base (x : ℕ) : p x = none → PrevChainR p x [x]
  | step (x y : ℕ) (L : List ℕ) :
      p x = some y → PrevChainR p y L → PrevChainR p x (L ++ [x])

/-- The loop invariant of the Dijkstra main loop, for graph `g`, start
node `s`, current unvisited list `u` and current maps `d` (tentative
distances) and `p` (predecessors).  `initUnvisited g` is the initial
unvisited list; a node is *settled* when it is in `initUnvisited g` but
no longer in `u`. -/
structure DInv (g : Graph) (s : ℕ) (u : List ℕ)
    (d : ℕ → Option ℚ) (p : ℕ → Option ℕ) : Prop where
  hsub : u.Sublist (initUnvisited g)
  hds : d s = some 0
  hnn : ∀ x c, d x = some c → 0 ≤ c
  hterm : ∀ x c, d x = some c → p x = none → x = s
  hprev : ∀ x y, p x = some y →
    x ∈ initUnvisited g ∧ y ∈ initUnvisited g ∧ y ∉ u ∧
      ∃ e ∈ g.edges, edgeConnectsB e y x = true ∧
        ∃ cy, d y = some cy ∧ d x = some (cy + e.weight)
  hfin : ∀ x ∈ initUnvisited g, x ∉ u → ∃ c, d x = some c
  hlb : ∀ x ∈ initUnvisited g, x ∉ u →
    ∀ w cw, IsWalk g s x w → pathCost g w = some cw →
      ∀ cx, d x = some cx → cx ≤ cw
  hrelaxed : ∀ y ∈ initUnvisited g, y ∉ u →
    ∀ e ∈ g.edges, ∀ x, edgeConnectsB e y x = true → x ∈ u →
      ∀ cy, d y = some cy → ∃ cx, d x = some cx ∧ cx ≤ cy + e.weight
  hrank : ∃ rk : ℕ → ℕ,
    (∀ x ∈ initUnvisited g, x ∉ u →
      rk x < (initUnvisited g).length - u.length) ∧
    (∀ x y, p x = some y → x ∈ initUnvisited g → x ∉ u → rk y < rk x)

/-- The rectangle used by both the `"Yale Campus"` and the `"Downtown"`
features of `neighborhoodPolygons`: their coordinate lists in the source
are character-for-character identical. -/
def yaleDowntownRing : List (List (ℚ × ℚ)) :=
  [[(-72.9320, 41.3050), (-72.9320, 41.3110),
    (-72.9240, 41.3110), (-72.9240, 41.3050),
    (-72.9320, 41.3050)]]

/-- The invariant of the node-building pass: node ids are exactly
`0, 1, …, counter - 1` in array order, and `nodeMap` is the exact
OSM-id → node-id index of the nodes built so far. -/
structure BuildOK (osm : ℕ → Option OsmCoord) (st : BuildState) : Prop where
  hids : st.nodes.map Node.id = List.range st.counter
  hchar : ∀ k v, st.nodeMap k = some v ↔ ∃ n ∈ st.nodes, n.osmId = k ∧ n.id = v

/-! ## Concrete inputs used by witnesses and counterexamples -/

/-- A trivial numeric oracle (all primitives constantly zero), used to
evaluate the builder on concrete inputs. -/
def trivOracle : TrigOracle :=
  { sin := fun _ => 0, cos := fun _ => 0, sqrt := fun _ => 0,
    atan2 := fun _ _ => 0, pi := 0 }

/-- A trivial point-in-polygon test (never inside), used to evaluate the
builder on concrete inputs. -/
def trivPip : PiP := fun _ _ => false

/-- Concrete `osmNodes` map: ids 1, 2, 3 at distinct coordinates. -/
def exOsmNodes : ℕ → Option OsmCoord := fun k =>
  if k = 1 then some { lat := 41, lon := -72 }
  else if k = 2 then some { lat := 42, lon := -73 }
  else if k = 3 then some { lat := 43, lon := -74 }
  else none

/-- A way that lists the same OSM node id twice in a row. -/
def exDupWays : List Way := [{ id := 7, nodes := [1, 1], name := none }]

/-- Two distinct-endpoint ways. -/
def exGoodWays : List Way :=
  [{ id := 7, nodes := [1, 2], name := some "A St" },
   { id := 8, nodes := [2, 3], name := none }]

/-- A small concrete graph: a 2-path 0 – 1 – 2 plus an expensive direct
edge 0 – 2, exercising the solver's optimality. -/
def exGraph : Graph :=
  { nodes :=
      [{ id := 0, lat := 0, lng := 0, osmId := 10 },
       { id := 1, lat := 0, lng := 1, osmId := 11 },
       { id := 2, lat := 0, lng := 2, osmId := 12 }],
    edges :=
      [{ from_ := 0, to_ := 2, crimes := 9, weight := 9, wayId := 0,
         streetName := "direct", neighborhood := "default" },
       { from_ := 0, to_ := 1, crimes := 1, weight := 1, wayId := 1,
         streetName := "a", neighborhood := "default" },
       { from_ := 1, to_ := 2, crimes := 1, weight := 1, wayId := 2,
         streetName := "b", neighborhood := "default" }] }

/-- A concrete 4-node path graph whose three edges have crime scores
1, 4 and 10 (the C6 scenario). -/
def exRatingGraph : Graph :=
  { nodes :=
      [{ id := 0, lat := 0, lng := 0, osmId := 0 },
       { id := 1, lat := 0, lng := 1, osmId := 1 },
       { id := 2, lat := 0, lng := 2, osmId := 2 },
       { id := 3, lat := 0, lng := 3, osmId := 3 }],
    edges :=
      [{ from_ := 0, to_ := 1, crimes := 1, weight := 1, wayId := 0,
         streetName := "x", neighborhood := "default" },
       { from_ := 1, to_ := 2, crimes := 4, weight := 4, wayId := 0,
         streetName := "y", neighborhood := "default" },
       { from_ := 2, to_ := 3, crimes := 10, weight := 10, wayId := 0,
         streetName := "z", neighborhood := "default" }] }

/-! ## Neighborhood classifier: the Downtown shadow (claim C10) -/

theorem neighborhoodPolygons_downtown_eq_yale :
    neighborhoodPolygons.head? = some ("Yale Campus", yaleDowntownRing) ∧
    neighborhoodPolygons.getLast? = some ("Downtown", yaleDowntownRing) := by
  constructor <;> rfl

theorem lookupSafetyFactor_nonneg (n : String) : 0 ≤ lookupSafetyFactor n := by
  unfold lookupSafetyFactor neighborhoodSafetyFactors
  simp only [List.lookup]
  repeat' split
  all_goals norm_num

/-- helper: an accumulator that is `some` stays `some` through the
`findNearestNode` fold. -/
theorem findNearest_fold_isSome (t : TrigOracle) (lat lng : ℚ) :
    ∀ (l : List Node) (acc : Node × ℚ),
      (l.foldl
        (fun (acc : Option (Node × ℚ)) node =>
          let dist := getDistance t lat lng node.lat node.lng
          match acc with
          | none => some (node, dist)
          | some (bestNode, minDist) =>
            if dist < minDist then some (node, dist) else some (bestNode, minDist))
        (some acc)).isSome = true := by
  intro l
  induction l with
  | nil => intro acc; rfl
  | cons nd l ih =>
    intro acc
    simp only [List.foldl_cons]
    rcases acc with ⟨bn, md⟩
    by_cases h : getDistance t lat lng nd.lat nd.lng < md
    · simpa [h] using ih (nd, getDistance t lat lng nd.lat nd.lng)
    · simpa [h] using ih (bn, md)

/-- On a graph with at least one node, `findNearestNode` returns a node. -/
theorem findNearestNode_isSome (t : TrigOracle) (g : Graph) (lat lng : ℚ)
    (h : g.nodes ≠ []) : (findNearestNode t g lat lng).isSome = true := by
  unfold findNearestNode
  rcases g with ⟨nodes, edges⟩
  cases nodes with
  | nil => exact absurd rfl h
  | cons nd l =>
    simp only [List.foldl_cons, Option.isSome_map']
    exact findNearest_fold_isSome t lat lng l
      (nd, getDistance t lat lng nd.lat nd.lng)

/-- C10: the neighborhood classifier never answers `"Downtown"`.  The
Downtown polygon is identical to the Yale Campus polygon and Yale Campus
precedes Downtown in the first-match-wins scan, so any point-in-polygon
test that would accept Downtown already accepted Yale Campus. -/
theorem getNeighborhoodForPoint_never_downtown (pip : PiP) (lat lng : ℚ) :
    getNeighborhoodForPoint pip lat lng ≠ "Downtown" := by
  unfold getNeighborhoodForPoint
  have hpoly : neighborhoodPolygons =
      [("Yale Campus", yaleDowntownRing),
       ("East Rock",
        [[(-72.9280, 41.3110), (-72.9280, 41.3180),
          (-72.9180, 41.3180), (-72.9180, 41.3110),
          (-72.9280, 41.3110)]]),
       ("Westville",
        [[(-72.9450, 41.3050), (-72.9450, 41.3130),
          (-72.9320, 41.3130), (-72.9320, 41.3050),
          (-72.9450, 41.3050)]]),
       ("Wooster Square",
        [[(-72.9200, 41.3020), (-72.9200, 41.3100),
          (-72.9100, 41.3100), (-72.9100, 41.3020),
          (-72.9200, 41.3020)]]),
       ("The Hill",
        [[(-72.9400, 41.2980), (-72.9400, 41.3050),
          (-72.9280, 41.3050), (-72.9280, 41.2980),
          (-72.9400, 41.2980)]]),
       ("Dwight",
        [[(-72.9500, 41.3050), (-72.9500, 41.3120),
          (-72.9450, 41.3120), (-72.9450, 41.3050),
          (-72.9500, 41.3050)]]),
       ("Downtown", yaleDowntownRing)] := rfl
  rw [hpoly]
  by_cases h1 : pip (lng, lat) yaleDowntownRing
  · rw [List.find?_cons_of_pos _ (by simpa using h1)]
    simp
  · rw [List.find?_cons_of_neg _ (by simpa using h1)]
    by_cases h2 : pip (lng, lat)
        [[(-72.9280, 41.3110), (-72.9280, 41.3180),
          (-72.9180, 41.3180), (-72.9180, 41.3110),
          (-72.9280, 41.3110)]]
    · rw [List.find?_cons_of_pos _ (by simpa using h2)]
      simp
    · rw [List.find?_cons_of_neg _ (by simpa using h2)]
      by_cases h3 : pip (lng, lat)
          [[(-72.9450, 41.3050), (-72.9450, 41.3130),
            (-72.9320, 41.3130), (-72.9320, 41.3050),
            (-72.9450, 41.3050)]]
      · rw [List.find?_cons_of_pos _ (by simpa using h3)]
        simp
      · rw [List.find?_cons_of_neg _ (by simpa using h3)]
        by_cases h4 : pip (lng, lat)
            [[(-72.9200, 41.3020), (-72.9200, 41.3100),
              (-72.9100, 41.3100), (-72.9100, 41.3020),
              (-72.9200, 41.3020)]]
        · rw [List.find?_cons_of_pos _ (by simpa using h4)]
          simp
        · rw [List.find?_cons_of_neg _ (by simpa using h4)]
          by_cases h5 : pip (lng, lat)
              [[(-72.9400, 41.2980), (-72.9400, 41.3050),
                (-72.9280, 41.3050), (-72.9280, 41.2980),
                (-72.9400, 41.2980)]]
          · rw [List.find?_cons_of_pos _ (by simpa using h5)]
            simp
          · rw [List.find?_cons_of_neg _ (by simpa using h5)]
            by_cases h6 : pip (lng, lat)
                [[(-72.9500, 41.3050), (-72.9500, 41.3120),
                  (-72.9450, 41.3120), (-72.9450, 41.3050),
                  (-72.9500, 41.3050)]]
            · rw [List.find?_cons_of_pos _ (by simpa using h6)]
              simp
            · rw [List.find?_cons_of_neg _ (by simpa using h6),
                List.find?_cons_of_neg _ (by simpa using h1), List.find?_nil]
              simp

/-- C3: the risk score is an integer in `[0, 14]` for every coordinate
pair (and any value of the external trigonometric and point-in-polygon
primitives), and it is pure: identical inputs give identical outputs. -/
theorem getCrimeLevel_range_and_pure (t : TrigOracle) (pip : PiP) (lat lng : ℚ) :
    0 ≤ getCrimeLevel t pip lat lng ∧ getCrimeLevel t pip lat lng ≤ 14 ∧
      ∀ lat' lng', lat' = lat → lng' = lng →
        getCrimeLevel t pip lat' lng' = getCrimeLevel t pip lat lng := by
  refine ⟨?_, ?_, ?_⟩
  · unfold getCrimeLevel
    have hfr : (0 : ℚ) ≤
        |t.sin (lat * 1000) * t.cos (lng * 1000)| -
          (⌊|t.sin (lat * 1000) * t.cos (lng * 1000)|⌋ : ℚ) :=
      Int.fract_nonneg _
    have hbase : (0 : ℤ) ≤
        ⌊(|t.sin (lat * 1000) * t.cos (lng * 1000)| -
            (⌊|t.sin (lat * 1000) * t.cos (lng * 1000)|⌋ : ℚ)) * 8 *
          lookupSafetyFactor (getNeighborhoodForPoint pip lat lng)⌋ := by
      apply Int.floor_nonneg.mpr
      have h8 : (0 : ℚ) ≤
          (|t.sin (lat * 1000) * t.cos (lng * 1000)| -
            (⌊|t.sin (lat * 1000) * t.cos (lng * 1000)|⌋ : ℚ)) * 8 :=
        mul_nonneg hfr (by norm_num)
      exact mul_nonneg h8 (lookupSafetyFactor_nonneg _)
    exact le_min (by norm_num) hbase
  · exact min_le_left _ _
  · intro lat' lng' h1 h2
    rw [h1, h2]

/-- C3 witness: the theorem applied at a concrete oracle and coordinate. -/
theorem getCrimeLevel_range_witness :
    0 ≤ getCrimeLevel trivOracle trivPip 41 (-72) ∧
      getCrimeLevel trivOracle trivPip 41 (-72) ≤ 14 ∧
      getCrimeLevel trivOracle trivPip 41 (-72) =
        getCrimeLevel trivOracle trivPip 41 (-72) :=
  ⟨(getCrimeLevel_range_and_pure trivOracle trivPip 41 (-72)).1,
   (getCrimeLevel_range_and_pure trivOracle trivPip 41 (-72)).2.1,
   (getCrimeLevel_range_and_pure trivOracle trivPip 41 (-72)).2.2 41 (-72) rfl rfl⟩

/-! ## Route aggregator classification (claim C6) -/

/-- C6: the aggregator's classification is the four-tier step function
of mean risk per segment with inclusive upper boundaries, and the
concrete scenario: a path whose traversed edges have risks `[1, 4, 10]`
has mean risk `5` and is classified `"Safe"`. -/
theorem routeSafetyRating_tiers_and_scenario :
    (∀ m : ℚ,
      (m ≤ 2 → safetyRatingOfAvg m = "Very Safe") ∧
      (¬ m ≤ 2 → m ≤ 5 → safetyRatingOfAvg m = "Safe") ∧
      (¬ m ≤ 5 → m ≤ 8 → safetyRatingOfAvg m = "Moderate") ∧
      (¬ m ≤ 8 → safetyRatingOfAvg m = "Caution Advised")) ∧
    (∀ g path, routeSafetyRating g path = safetyRatingOfAvg (avgCrimesOn g path)) ∧
    totalCrimesOn exRatingGraph [0, 1, 2, 3] = 15 ∧
    avgCrimesOn exRatingGraph [0, 1, 2, 3] = 5 ∧
    routeSafetyRating exRatingGraph [0, 1, 2, 3] = "Safe" := by
  have ht : totalCrimesOn exRatingGraph [0, 1, 2, 3] = 15 := by decide
  have havg : avgCrimesOn exRatingGraph [0, 1, 2, 3] = 5 := by
    unfold avgCrimesOn
    rw [ht]
    norm_num
  have hrate : routeSafetyRating exRatingGraph [0, 1, 2, 3] = "Safe" := by
    unfold routeSafetyRating safetyRatingOfAvg
    rw [havg, if_neg (by norm_num), if_pos (by norm_num)]
  refine ⟨?_, fun g path => rfl, ht, havg, hrate⟩
  intro m
  unfold safetyRatingOfAvg
  refine ⟨fun h1 => by rw [if_pos h1], fun h1 h2 => ?_, fun h2 h3 => ?_, fun h3 => ?_⟩
  · rw [if_neg h1, if_pos h2]
  · have h1 : ¬ m ≤ 2 := fun h => h2 (h.trans (by norm_num))
    rw [if_neg h1, if_neg h2, if_pos h3]
  · have h2 : ¬ m ≤ 5 := fun h => h3 (h.trans (by norm_num))
    have h1 : ¬ m ≤ 2 := fun h => h2 (h.trans (by norm_num))
    rw [if_neg h1, if_neg h2, if_neg h3]

/-- C6 witness: the tier function applied at concrete means, including
the inclusive boundary `5 ↦ "Safe"`. -/
theorem routeSafetyRating_tiers_witness :
    safetyRatingOfAvg 1 = "Very Safe" ∧ safetyRatingOfAvg 5 = "Safe" ∧
    safetyRatingOfAvg 7 = "Moderate" ∧ safetyRatingOfAvg 9 = "Caution Advised" :=
  ⟨(routeSafetyRating_tiers_and_scenario.1 1).1 (by norm_num),
   (routeSafetyRating_tiers_and_scenario.1 5).2.1 (by norm_num) (by norm_num),
   (routeSafetyRating_tiers_and_scenario.1 7).2.2.1 (by norm_num) (by norm_num),
   (routeSafetyRating_tiers_and_scenario.1 9).2.2.2 (by norm_num)⟩

/-! ## Empty input and empty graph (claim C7) -/

/-- C7: building from an empty way list yields the empty graph, and a
query against a 0-node graph is answered by the dedicated `emptyGraph`
outcome (the 'Street data not loaded yet' alert), decided before the
nearest-node lookup and the solver run and distinct from the
`noRouteFound` outcome (the 'No route found!' alert); likewise the
nearest-node lookup itself has no answer on an empty graph. -/
theorem emptyBuild_and_emptyGraph_rejection :
    (∀ t pip osmNodes, loadStreetData t pip osmNodes [] = ⟨[], []⟩) ∧
    (∀ t g sp ep, g.nodes = [] →
      findSafestRouteOutcome t g (some sp) (some ep) = RouteOutcome.emptyGraph) ∧
    RouteOutcome.emptyGraph ≠ RouteOutcome.noRouteFound ∧
    (∀ t g lat lng, g.nodes = [] → findNearestNode t g lat lng = none) := by
  refine ⟨fun t pip osmNodes => rfl, ?_, by decide, ?_⟩
  · intro t g sp ep h
    have hg : g.nodes.length = 0 := by rw [h]; rfl
    simp [findSafestRouteOutcome, hg]
  · intro t g lat lng h
    unfold findNearestNode
    rw [h]
    rfl

/-- C7 witness: the theorem applied to the graph built from the empty
way list. -/
theorem emptyBuild_witness :
    loadStreetData trivOracle trivPip exOsmNodes [] = ⟨[], []⟩ ∧
    findSafestRouteOutcome trivOracle ⟨[], []⟩ (some (0, 0)) (some (1, 1)) =
      RouteOutcome.emptyGraph ∧
    findNearestNode trivOracle ⟨[], []⟩ 0 0 = none :=
  ⟨emptyBuild_and_emptyGraph_rejection.1 trivOracle trivPip exOsmNodes,
   emptyBuild_and_emptyGraph_rejection.2.1 trivOracle ⟨[], []⟩ (0, 0) (1, 1) rfl,
   emptyBuild_and_emptyGraph_rejection.2.2.2 trivOracle ⟨[], []⟩ 0 0 rfl⟩

/-! ## Graph builder invariants (claims C4, C5, C9) -/

theorem buildOK_init (osm : ℕ → Option OsmCoord) :
    BuildOK osm { nodes := [], nodeMap := fun _ => none, counter := 0 } := by
  constructor
  · rfl
  · intro k v
    simp

theorem buildNodeStep_ok (osm : ℕ → Option OsmCoord) (st : BuildState) (k : ℕ)
    (h : BuildOK osm st) : BuildOK osm (buildNodeStep osm st k) := by
  unfold buildNodeStep
  cases hm : st.nodeMap k with
  | some v => exact h
  | none =>
    cases ho : osm k with
    | none => exact h
    | some c =>
      constructor
      · simp [List.map_append, h.hids, List.range_succ]
      · intro k' v
        constructor
        · intro hv
          simp only at hv
          by_cases hk : k' = k
          · rw [if_pos hk] at hv
            refine ⟨{ id := st.counter, lat := c.lat, lng := c.lon, osmId := k },
              by simp, by simp [hk], ?_⟩
            simpa using Option.some.inj hv
          · rw [if_neg hk] at hv
            obtain ⟨n, hn, hno, hni⟩ := (h.hchar k' v).mp hv
            exact ⟨n, by simp [hn], hno, hni⟩
        · rintro ⟨n, hn, hno, hni⟩
          simp only at hn ⊢
          rcases List.mem_append.mp hn with hn | hn
          · have hold : st.nodeMap k' = some v := (h.hchar k' v).mpr ⟨n, hn, hno, hni⟩
            have hk : k' ≠ k := by
              intro hkk
              rw [hkk] at hold
              rw [hm] at hold
              exact Option.noConfusion hold
            rw [if_neg hk]
            exact hold
          · have hn' : n = { id := st.counter, lat := c.lat, lng := c.lon, osmId := k } := by
              simpa using hn
            subst hn'
            simp only at hno hni
            rw [if_pos hno.symm]
            rw [← hni]

theorem foldl_buildNodeStep_ok (osm : ℕ → Option OsmCoord) :
    ∀ (l : List ℕ) (st : BuildState), BuildOK osm st →
      BuildOK osm (l.foldl (buildNodeStep osm) st) := by
  intro l
  induction l with
  | nil => intro st h; exact h
  | cons k l ih => intro st h; exact ih _ (buildNodeStep_ok osm st k h)

theorem buildNodes_eq_bind (osm : ℕ → Option OsmCoord) :
    ∀ (ways : List Way) (st : BuildState),
      ways.foldl (fun st way => way.nodes.foldl (buildNodeStep osm) st) st =
        (ways.flatMap Way.nodes).foldl (buildNodeStep osm) st := by
  intro ways
  induction ways with
  | nil => intro st; rfl
  | cons w ws ih =>
    intro st
    rw [List.foldl_cons, ih]
    show _ = List.foldl (buildNodeStep osm) st (w.nodes ++ ws.flatMap Way.nodes)
    rw [List.foldl_append]

theorem buildNodes_ok (osm : ℕ → Option OsmCoord) (ways : List Way) :
    BuildOK osm (buildNodes osm ways) := by
  unfold buildNodes
  rw [buildNodes_eq_bind]
  exact foldl_buildNodeStep_ok osm _ _ (buildOK_init osm)

theorem buildOK_counter (osm : ℕ → Option OsmCoord) (st : BuildState)
    (h : BuildOK osm st) : st.nodes.length = st.counter := by
  have := congrArg List.length h.hids
  simpa using this

theorem buildOK_get_id (osm : ℕ → Option OsmCoord) (st : BuildState)
    (h : BuildOK osm st) : ∀ i n, st.nodes.get? i = some n → n.id = i := by
  intro i n hget
  have hlt : i < st.nodes.length := List.get?_eq_some.mp hget |>.1
  have h1 : (st.nodes.map Node.id).get? i = some n.id := by
    rw [List.get?_map, hget]
    rfl
  rw [h.hids, List.get?_range (by rwa [← buildOK_counter osm st h])] at h1
  exact (Option.some.inj h1).symm

theorem buildOK_map_lt (osm : ℕ → Option OsmCoord) (st : BuildState)
    (h : BuildOK osm st) {k v : ℕ} (hv : st.nodeMap k = some v) :
    v < st.nodes.length := by
  obtain ⟨n, hn, _, hni⟩ := (h.hchar k v).mp hv
  have : n.id ∈ st.nodes.map Node.id := List.mem_map_of_mem Node.id hn
  rw [h.hids, List.mem_range] at this
  rw [← hni, buildOK_counter osm st h]
  exact this

theorem buildOK_inj (osm : ℕ → Option OsmCoord) (st : BuildState)
    (h : BuildOK osm st) {k1 k2 v : ℕ}
    (h1 : st.nodeMap k1 = some v) (h2 : st.nodeMap k2 = some v) : k1 = k2 := by
  obtain ⟨n1, hn1, ho1, hi1⟩ := (h.hchar k1 v).mp h1
  obtain ⟨n2, hn2, ho2, hi2⟩ := (h.hchar k2 v).mp h2
  have hnodup : (st.nodes.map Node.id).Nodup := by
    rw [h.hids]; exact List.nodup_range _
  have : n1 = n2 :=
    List.inj_on_of_nodup_map hnodup hn1 hn2 (by rw [hi1, hi2])
  rw [← ho1, ← ho2, this]

theorem buildOK_osm_nodup (osm : ℕ → Option OsmCoord) (st : BuildState)
    (h : BuildOK osm st) : (st.nodes.map Node.osmId).Nodup := by
  have hid_nodup : (st.nodes.map Node.id).Nodup := by
    rw [h.hids]; exact List.nodup_range _
  have hnodes : st.nodes.Nodup := hid_nodup.of_map
  rw [List.nodup_map_iff_inj_on hnodes]
  intro n1 hn1 n2 hn2 hosm
  have h1 : st.nodeMap n1.osmId = some n1.id := (h.hchar _ _).mpr ⟨n1, hn1, rfl, rfl⟩
  have h2 : st.nodeMap n2.osmId = some n2.id := (h.hchar _ _).mpr ⟨n2, hn2, rfl, rfl⟩
  rw [hosm, h2] at h1
  have : n2.id = n1.id := Option.some.inj h1
  exact List.inj_on_of_nodup_map hid_nodup hn1 hn2 this.symm

theorem buildNodeStep_mono (osm : ℕ → Option OsmCoord) (st : BuildState)
    (k' k : ℕ) {v : ℕ} (h : st.nodeMap k = some v) :
    (buildNodeStep osm st k').nodeMap k = some v := by
  unfold buildNodeStep
  cases hm : st.nodeMap k' with
  | some w => exact h
  | none =>
    cases ho : osm k' with
    | none => exact h
    | some c =>
      simp only
      rw [if_neg (fun hk => by rw [hk, hm] at h; exact Option.noConfusion h)]
      exact h

theorem foldl_buildNodeStep_mono (osm : ℕ → Option OsmCoord) :
    ∀ (l : List ℕ) (st : BuildState) (k : ℕ) {v : ℕ}, st.nodeMap k = some v →
      ((l.foldl (buildNodeStep osm) st).nodeMap) k = some v := by
  intro l
  induction l with
  | nil => intro st k v h; exact h
  | cons a l ih => intro st k v h; exact ih _ _ (buildNodeStep_mono osm st a k h)

theorem foldl_buildNodeStep_total (osm : ℕ → Option OsmCoord) :
    ∀ (l : List ℕ) (st : BuildState) (k : ℕ), k ∈ l → (osm k).isSome →
      (((l.foldl (buildNodeStep osm) st).nodeMap) k).isSome := by
  intro l
  induction l with
  | nil => intro st k hk; exact absurd hk (List.not_mem_nil k)
  | cons a l ih =>
    intro st k hk ho
    rcases List.mem_cons.mp hk with rfl | hk
    · have hsome : ((buildNodeStep osm st k).nodeMap k).isSome := by
        unfold buildNodeStep
        cases hm : st.nodeMap k with
        | some w => simp [hm]
        | none =>
          cases hosm : osm k with
          | none => rw [hosm] at ho; exact Bool.noConfusion ho
          | some c => simp
      obtain ⟨v, hv⟩ := Option.isSome_iff_exists.mp hsome
      rw [List.foldl_cons]
      exact Option.isSome_iff_exists.mpr ⟨v, foldl_buildNodeStep_mono osm l _ k hv⟩
    · exact ih _ k hk ho

/-- After the node pass, every OSM id occurring in some way and known to
`osmNodes` has an entry in `nodeMap` (so the `nodeMap.get` calls of the
edge pass never miss). -/
theorem buildNodes_map_total (osm : ℕ → Option OsmCoord) (ways : List Way)
    (w : Way) (hw : w ∈ ways) (k : ℕ) (hk : k ∈ w.nodes) (ho : (osm k).isSome) :
    (((buildNodes osm ways).nodeMap) k).isSome := by
  unfold buildNodes
  rw [buildNodes_eq_bind]
  exact foldl_buildNodeStep_total osm _ _ k (List.mem_flatMap.mpr ⟨w, hw, hk⟩) ho

/-- Membership characterization: an OSM id is among the built nodes
exactly when `nodeMap` knows it. -/
theorem buildOK_mem_iff (osm : ℕ → Option OsmCoord) (st : BuildState)
    (h : BuildOK osm st) (k : ℕ) :
    k ∈ st.nodes.map Node.osmId ↔ (st.nodeMap k).isSome := by
  constructor
  · intro hk
    obtain ⟨n, hn, ho⟩ := List.mem_map.mp hk
    exact Option.isSome_iff_exists.mpr ⟨n.id, (h.hchar k n.id).mpr ⟨n, hn, ho, rfl⟩⟩
  · intro hk
    obtain ⟨v, hv⟩ := Option.isSome_iff_exists.mp hk
    obtain ⟨n, hn, ho, _⟩ := (h.hchar k v).mp hv
    exact List.mem_map.mpr ⟨n, hn, ho⟩

/-- The OSM ids of the built nodes are the first occurrences, in order,
of the ids occurring in the ways (restricted to ids `osmNodes` knows). -/
theorem foldl_buildNodeStep_order (osm : ℕ → Option OsmCoord) :
    ∀ (l : List ℕ) (st : BuildState), BuildOK osm st →
      (l.foldl (buildNodeStep osm) st).nodes.map Node.osmId =
        (l.filter (fun k => (osm k).isSome)).foldl addUnique
          (st.nodes.map Node.osmId) := by
  intro l
  induction l with
  | nil => intro st h; rfl
  | cons k l ih =>
    intro st h
    rw [List.foldl_cons]
    have hstep := ih (buildNodeStep osm st k) (buildNodeStep_ok osm st k h)
    rw [hstep]
    cases ho : osm k with
    | none =>
      have h1 : buildNodeStep osm st k = st := by
        unfold buildNodeStep
        cases hm : st.nodeMap k with
        | some w => rfl
        | none => rw [ho]
      have h2 : List.filter (fun k => (osm k).isSome) (k :: l) =
          List.filter (fun k => (osm k).isSome) l := by
        rw [List.filter_cons_of_neg (by simp [ho])]
      rw [h1, h2]
    | some c =>
      have h2 : List.filter (fun k => (osm k).isSome) (k :: l) =
          k :: List.filter (fun k => (osm k).isSome) l := by
        rw [List.filter_cons_of_pos (by simp [ho])]
      rw [h2, List.foldl_cons]
      cases hm : st.nodeMap k with
      | some w =>
        have h1 : buildNodeStep osm st k = st := by
          unfold buildNodeStep
          rw [hm]
        have hmem : k ∈ st.nodes.map Node.osmId :=
          (buildOK_mem_iff osm st h k).mpr (by simp [hm])
        rw [h1, addUnique, if_pos hmem]
      | none =>
        have hnot : k ∉ st.nodes.map Node.osmId := by
          rw [buildOK_mem_iff osm st h k, hm]
          simp
        have h1 : (buildNodeStep osm st k).nodes =
            st.nodes ++ [{ id := st.counter, lat := c.lat, lng := c.lon, osmId := k }] := by
          unfold buildNodeStep
          rw [hm, ho]
        rw [h1, addUnique, if_neg hnot]
        simp

/-- Where each built edge comes from: a consecutive OSM-id pair of some
way that survived the `osmNodes` check, with `from`/`to` the `nodeMap`
images and the weight computed from the two indexed nodes. -/
theorem buildWayEdges_spec (t : TrigOracle) (pip : PiP) (nodes : List Node)
    (nodeMap : ℕ → Option ℕ) (osm : ℕ → Option OsmCoord) (w : Way) (ed : Edge)
    (hed : ed ∈ buildWayEdges t pip nodes nodeMap osm w) :
    ∃ a b, (a, b) ∈ w.nodes.zip w.nodes.tail ∧
      (osm a).isSome = true ∧ (osm b).isSome = true ∧
      nodeMap a = some ed.from_ ∧ nodeMap b = some ed.to_ ∧
      ∃ fn tn, nodes.get? ed.from_ = some fn ∧ nodes.get? ed.to_ = some tn ∧
        ed.weight = (ed.crimes : ℚ) + getDistance t fn.lat fn.lng tn.lat tn.lng * 100 := by
  unfold buildWayEdges at hed
  obtain ⟨⟨a, b⟩, hab, hf⟩ := List.mem_filterMap.mp hed
  refine ⟨a, b, hab, ?_⟩
  simp only at hf
  split at hf
  next ca cb hoa hob =>
    split at hf
    next fromId toId hma hmb =>
      split at hf
      next fn tn hga hgb =>
        have hed' := Option.some.inj hf
        subst hed'
        exact ⟨by rw [hoa]; rfl, by rw [hob]; rfl, hma, hmb, fn, tn, hga, hgb, rfl⟩
      next h1 => exact Option.noConfusion hf
    next h1 => exact Option.noConfusion hf
  next h1 => exact Option.noConfusion hf

theorem foldl_append_eq_flatMap (f : Way → List Edge) :
    ∀ (ways : List Way) (acc : List Edge),
      ways.foldl (fun es w => es ++ f w) acc = acc ++ ways.flatMap f := by
  intro ways
  induction ways with
  | nil => intro acc; simp
  | cons w ws ih =>
    intro acc
    rw [List.foldl_cons, ih, List.flatMap_cons, List.append_assoc]

/-- Edge membership in a built graph, reduced to a single way. -/
theorem loadStreetData_mem_edges (t : TrigOracle) (pip : PiP)
    (osm : ℕ → Option OsmCoord) (ways : List Way) (ed : Edge) :
    ed ∈ (loadStreetData t pip osm ways).edges ↔
      ∃ w ∈ ways, ed ∈ buildWayEdges t pip (buildNodes osm ways).nodes
        (buildNodes osm ways).nodeMap osm w := by
  unfold loadStreetData
  simp only
  rw [foldl_append_eq_flatMap]
  simp [List.mem_flatMap]

/-- A consecutive pair of a list on which a chain relation holds. -/
theorem chain'_of_zip_tail {R : ℕ → ℕ → Prop} :
    ∀ (l : List ℕ), l.Chain' R → ∀ a b, (a, b) ∈ l.zip l.tail → R a b := by
  intro l
  induction l with
  | nil => intro _ a b h; exact absurd h (List.not_mem_nil _)
  | cons x xs ih =>
    intro hch a b hab
    cases xs with
    | nil => exact absurd hab (List.not_mem_nil _)
    | cons y ys =>
      rw [List.chain'_cons] at hch
      simp only [List.tail_cons, List.zip_cons_cons, List.mem_cons] at hab
      rcases hab with hab | hab
      · obtain ⟨h1, h2⟩ := Prod.mk.injEq .. ▸ hab
        cases hab
        exact hch.1
      · exact ih hch.2 a b (by simpa using hab)

/-- C4: every edge of a built graph carries
`weight = crimes + getDistance(endpoints) * 100`, the endpoints being
the nodes the edge's `from`/`to` ids index in the built node array. -/
theorem loadStreetData_weight_invariant (t : TrigOracle) (pip : PiP)
    (osm : ℕ → Option OsmCoord) (ways : List Way) (ed : Edge)
    (hed : ed ∈ (loadStreetData t pip osm ways).edges) :
    ∃ fn tn, (loadStreetData t pip osm ways).nodes.get? ed.from_ = some fn ∧
      (loadStreetData t pip osm ways).nodes.get? ed.to_ = some tn ∧
      ed.weight = (ed.crimes : ℚ) + getDistance t fn.lat fn.lng tn.lat tn.lng * 100 := by
  obtain ⟨w, _, hmem⟩ := (loadStreetData_mem_edges t pip osm ways ed).mp hed
  obtain ⟨a, b, _, _, _, _, _, fn, tn, hga, hgb, hw⟩ :=
    buildWayEdges_spec t pip _ _ osm w ed hmem
  exact ⟨fn, tn, hga, hgb, hw⟩

/-- C4 witness: the invariant applied to a concrete build. -/
theorem loadStreetData_weight_invariant_witness :
    ∃ fn tn,
      (loadStreetData trivOracle trivPip exOsmNodes exGoodWays).nodes.get? 0 = some fn ∧
      (loadStreetData trivOracle trivPip exOsmNodes exGoodWays).nodes.get? 1 = some tn ∧
      (0 : ℚ) = ((0 : ℤ) : ℚ) + getDistance trivOracle fn.lat fn.lng tn.lat tn.lng * 100 := by
  have h := loadStreetData_weight_invariant trivOracle trivPip exOsmNodes exGoodWays
    ({ from_ := 0, to_ := 1, crimes := 0, weight := 0, wayId := 7,
       streetName := "A St", neighborhood := "default" } : Edge)
    (of_decide_eq_true (by with_unfolding_all rfl))
  exact h

/-- C5 counterexample: a way listing the same OSM id twice in a row
produces a self-loop edge (`from = to`), refuting the distinctness half
of the claim for arbitrary input. -/
theorem loadStreetData_selfloop_counterexample :
    ∃ ed ∈ (loadStreetData trivOracle trivPip exOsmNodes exDupWays).edges,
      ed.from_ = ed.to_ := by decide

/-- C5 (amended): every edge of a built graph references nodes that
exist in that graph; and when no way repeats an OSM id at consecutive
positions, both endpoints are moreover distinct. -/
theorem loadStreetData_edge_endpoints (t : TrigOracle) (pip : PiP)
    (osm : ℕ → Option OsmCoord) (ways : List Way) :
    (∀ ed ∈ (loadStreetData t pip osm ways).edges,
      (∃ n ∈ (loadStreetData t pip osm ways).nodes, n.id = ed.from_) ∧
      (∃ n ∈ (loadStreetData t pip osm ways).nodes, n.id = ed.to_)) ∧
    ((∀ w ∈ ways, w.nodes.Chain' (fun a b => a ≠ b)) →
      ∀ ed ∈ (loadStreetData t pip osm ways).edges, ed.from_ ≠ ed.to_) := by
  have hok : BuildOK osm (buildNodes osm ways) := buildNodes_ok osm ways
  constructor
  · intro ed hed
    obtain ⟨w, _, hmem⟩ := (loadStreetData_mem_edges t pip osm ways ed).mp hed
    obtain ⟨a, b, _, _, _, _, _, fn, tn, hga, hgb, _⟩ :=
      buildWayEdges_spec t pip _ _ osm w ed hmem
    have hfn : fn ∈ (buildNodes osm ways).nodes := List.get?_mem hga
    have htn : tn ∈ (buildNodes osm ways).nodes := List.get?_mem hgb
    exact ⟨⟨fn, hfn, buildOK_get_id osm _ hok _ _ hga⟩,
           ⟨tn, htn, buildOK_get_id osm _ hok _ _ hgb⟩⟩
  · intro hways ed hed heq
    obtain ⟨w, hw, hmem⟩ := (loadStreetData_mem_edges t pip osm ways ed).mp hed
    obtain ⟨a, b, hab, _, _, hma, hmb, _⟩ :=
      buildWayEdges_spec t pip _ _ osm w ed hmem
    have hne : a ≠ b := chain'_of_zip_tail w.nodes (hways w hw) a b hab
    rw [heq] at hma
    exact hne (buildOK_inj osm _ hok hma hmb)

/-- C5 (amended) witness: the theorem applied to a concrete build from
ways with pairwise-distinct consecutive ids. -/
theorem loadStreetData_edge_endpoints_witness :
    (∃ n ∈ (loadStreetData trivOracle trivPip exOsmNodes exGoodWays).nodes, n.id = 0) ∧
    (0 : ℕ) ≠ 1 := by
  have h := loadStreetData_edge_endpoints trivOracle trivPip exOsmNodes exGoodWays
  have hmem : ({ from_ := 0, to_ := 1, crimes := 0, weight := 0, wayId := 7,
                 streetName := "A St", neighborhood := "default" } : Edge) ∈
      (loadStreetData trivOracle trivPip exOsmNodes exGoodWays).edges :=
    of_decide_eq_true (by with_unfolding_all rfl)
  have hch : ∀ w ∈ exGoodWays, List.Chain' (fun a b => a ≠ b) w.nodes := by
    intro w hw
    rcases List.mem_cons.mp hw with rfl | hw
    · simp [List.chain'_cons]
    · rcases List.mem_cons.mp hw with rfl | hw
      · simp [List.chain'_cons]
      · exact absurd hw (List.not_mem_nil _)
  refine ⟨?_, ?_⟩
  · have h1 := (h.1 _ hmem).1
    exact h1
  · exact h.2 hch _ hmem

/-- C9: the builder assigns dense zero-based ids in array order
(`graph.nodes[i].id = i`), creates exactly one node per unique OSM id,
and the OSM ids appear in first-seen order across ways in input order
(restricted to ids the `osmNodes` map knows). -/
theorem loadStreetData_node_ids (t : TrigOracle) (pip : PiP)
    (osm : ℕ → Option OsmCoord) (ways : List Way) :
    (∀ i n, (loadStreetData t pip osm ways).nodes.get? i = some n → n.id = i) ∧
    ((loadStreetData t pip osm ways).nodes.map Node.osmId).Nodup ∧
    (loadStreetData t pip osm ways).nodes.map Node.osmId =
      dedupFirst ((ways.flatMap Way.nodes).filter (fun k => (osm k).isSome)) := by
  have hok : BuildOK osm (buildNodes osm ways) := buildNodes_ok osm ways
  refine ⟨fun i n h => buildOK_get_id osm _ hok i n h,
    buildOK_osm_nodup osm _ hok, ?_⟩
  show (buildNodes osm ways).nodes.map Node.osmId = _
  unfold buildNodes dedupFirst
  rw [buildNodes_eq_bind]
  exact foldl_buildNodeStep_order osm _ _ (buildOK_init osm)

/-- C9 witness: in the graph built from `exGoodWays`, the node stored at
index 1 has id 1, and the OSM ids are `[1, 2, 3]` in first-seen order. -/
theorem loadStreetData_node_ids_witness :
    ({ id := 1, lat := 42, lng := -73, osmId := 2 } : Node).id = 1 ∧
    (loadStreetData trivOracle trivPip exOsmNodes exGoodWays).nodes.map Node.osmId =
      dedupFirst ((exGoodWays.flatMap Way.nodes).filter
        (fun k => (exOsmNodes k).isSome)) :=
  ⟨(loadStreetData_node_ids trivOracle trivPip exOsmNodes exGoodWays).1 1
      ({ id := 1, lat := 42, lng := -73, osmId := 2 } : Node)
      (of_decide_eq_true (by with_unfolding_all rfl)),
   (loadStreetData_node_ids trivOracle trivPip exOsmNodes exGoodWays).2.2⟩

/-! ## The unvisited set and the minimum search -/

theorem oLE_refl (a : Option ℚ) : oLE a a := fun cb h => ⟨cb, h, le_refl cb⟩

theorem oLE_trans {a b c : Option ℚ} (h1 : oLE a b) (h2 : oLE b c) : oLE a c := by
  intro cc hc
  obtain ⟨cb, hb, hbc⟩ := h2 cc hc
  obtain ⟨ca, ha, hab⟩ := h1 cb hb
  exact ⟨ca, ha, hab.trans hbc⟩

theorem mem_foldl_addUnique :
    ∀ (l : List ℕ) (acc : List ℕ) (x : ℕ),
      x ∈ l.foldl addUnique acc ↔ x ∈ acc ∨ x ∈ l := by
  intro l
  induction l with
  | nil => intro acc x; simp
  | cons a l ih =>
    intro acc x
    rw [List.foldl_cons, ih]
    unfold addUnique
    by_cases ha : a ∈ acc
    · rw [if_pos ha]
      constructor
      · rintro (h | h)
        · exact Or.inl h
        · exact Or.inr (List.mem_cons_of_mem a h)
      · rintro (h | h)
        · exact Or.inl h
        · rcases List.mem_cons.mp h with rfl | h
          · exact Or.inl ha
          · exact Or.inr h
    · rw [if_neg ha]
      constructor
      · rintro (h | h)
        · rcases List.mem_append.mp h with h | h
          · exact Or.inl h
          · simp only [List.mem_singleton] at h
            exact Or.inr (h ▸ List.mem_cons_self a l)
        · exact Or.inr (List.mem_cons_of_mem a h)
      · rintro (h | h)
        · exact Or.inl (List.mem_append.mpr (Or.inl h))
        · rcases List.mem_cons.mp h with rfl | h
          · exact Or.inl (List.mem_append.mpr (Or.inr (List.mem_singleton_self x)))
          · exact Or.inr h

theorem nodup_foldl_addUnique :
    ∀ (l : List ℕ) (acc : List ℕ), acc.Nodup → (l.foldl addUnique acc).Nodup := by
  intro l
  induction l with
  | nil => intro acc h; exact h
  | cons a l ih =>
    intro acc h
    rw [List.foldl_cons]
    apply ih
    unfold addUnique
    by_cases ha : a ∈ acc
    · rw [if_pos ha]; exact h
    · rw [if_neg ha]
      rw [List.nodup_append]
      exact ⟨h, List.nodup_singleton a,
        fun x hx hxa => ha ((List.mem_singleton.mp hxa) ▸ hx)⟩

theorem length_foldl_addUnique :
    ∀ (l : List ℕ) (acc : List ℕ),
      (l.foldl addUnique acc).length ≤ acc.length + l.length := by
  intro l
  induction l with
  | nil => intro acc; simp
  | cons a l ih =>
    intro acc
    rw [List.foldl_cons]
    refine (ih _).trans ?_
    unfold addUnique
    by_cases ha : a ∈ acc
    · rw [if_pos ha]
      simp only [List.length_cons]
      omega
    · rw [if_neg ha]
      simp only [List.length_append, List.length_cons, List.length_nil]
      omega

theorem mem_initUnvisited (g : Graph) (x : ℕ) :
    x ∈ initUnvisited g ↔ x ∈ g.nodes.map Node.id := by
  unfold initUnvisited dedupFirst
  rw [mem_foldl_addUnique]
  simp

theorem initUnvisited_nodup (g : Graph) : (initUnvisited g).Nodup :=
  nodup_foldl_addUnique _ [] List.nodup_nil

theorem initUnvisited_length_le (g : Graph) :
    (initUnvisited g).length ≤ g.nodes.length := by
  unfold initUnvisited dedupFirst
  have := length_foldl_addUnique (g.nodes.map Node.id) []
  simpa using this

/-- What the minimum-search fold can accumulate: nothing yet, or a node
of the scanned list together with its finite distance. -/
theorem minStep_fold_acc (d : ℕ → Option ℚ) (u : List ℕ) :
    ∀ (l : List ℕ) (acc : Option ℕ × Option ℚ),
      (∀ x ∈ l, x ∈ u) →
      (acc = (none, none) ∨ ∃ x c, acc = (some x, some c) ∧ x ∈ u ∧ d x = some c) →
      ((l.foldl (minStep d) acc) = (none, none) ∨
        ∃ x c, (l.foldl (minStep d) acc) = (some x, some c) ∧ x ∈ u ∧ d x = some c) := by
  intro l
  induction l with
  | nil => intro acc _ h; exact h
  | cons a l ih =>
    intro acc hsub hacc
    rw [List.foldl_cons]
    refine ih _ (fun x hx => hsub x (List.mem_cons_of_mem a hx)) ?_
    have hmem : a ∈ u := hsub a (List.mem_cons_self a l)
    unfold minStep
    split
    next ca c hda hacc2 =>
      split
      next hlt => exact Or.inr ⟨a, ca, rfl, hmem, hda⟩
      next hlt => exact hacc
    next ca hda hacc2 => exact Or.inr ⟨a, ca, rfl, hmem, hda⟩
    next hda => exact hacc

/-- The accumulated minimum only decreases and lower-bounds every
scanned distance. -/
theorem minStep_fold_min (d : ℕ → Option ℚ) :
    ∀ (l : List ℕ) (acc : Option ℕ × Option ℚ),
      oLE (l.foldl (minStep d) acc).2 acc.2 ∧
        ∀ x ∈ l, oLE (l.foldl (minStep d) acc).2 (d x) := by
  intro l
  induction l with
  | nil =>
    intro acc
    exact ⟨oLE_refl _, fun x hx => absurd hx (List.not_mem_nil x)⟩
  | cons a l ih =>
    intro acc
    rw [List.foldl_cons]
    have hstep1 : oLE (minStep d acc a).2 acc.2 := by
      unfold minStep
      split
      next ca c hda hacc =>
        split
        next hlt =>
          intro cb hcb
          rw [hacc] at hcb
          exact ⟨ca, rfl, (le_of_lt hlt).trans (le_of_eq (Option.some.inj hcb))⟩
        next hlt => exact oLE_refl _
      next ca hda hacc =>
        rw [hacc]
        intro cb hcb
        exact Option.noConfusion hcb
      next hda => exact oLE_refl _
    have hstep2 : oLE (minStep d acc a).2 (d a) := by
      unfold minStep
      split
      next ca c hda hacc =>
        split
        next hlt =>
          intro cb hcb
          rw [hda] at hcb
          exact ⟨ca, rfl, le_of_eq (Option.some.inj hcb)⟩
        next hlt =>
          intro cb hcb
          rw [hda] at hcb
          rw [hacc]
          exact ⟨c, rfl, (not_lt.mp hlt).trans (le_of_eq (Option.some.inj hcb))⟩
      next ca hda hacc =>
        intro cb hcb
        rw [hda] at hcb
        exact ⟨ca, rfl, le_of_eq (Option.some.inj hcb)⟩
      next hda =>
        intro cb hcb
        rw [hda] at hcb
        exact Option.noConfusion hcb
    obtain ⟨ih1, ih2⟩ := ih (minStep d acc a)
    refine ⟨oLE_trans ih1 hstep1, ?_⟩
    intro x hx
    rcases List.mem_cons.mp hx with rfl | hx
    · exact oLE_trans ih1 hstep2
    · exact ih2 x hx

/-- If the scan finds nothing, every scanned distance is `Infinity`
(for an accumulator whose node and distance parts are in sync). -/
theorem minStep_fold_none (d : ℕ → Option ℚ) :
    ∀ (l : List ℕ) (acc : Option ℕ × Option ℚ),
      (acc.1 = none → acc.2 = none) →
      (l.foldl (minStep d) acc).1 = none →
      acc.1 = none ∧ ∀ x ∈ l, d x = none := by
  intro l
  induction l with
  | nil =>
    intro acc _ h
    exact ⟨h, fun x hx => absurd hx (List.not_mem_nil x)⟩
  | cons a l ih =>
    intro acc hwf h
    rw [List.foldl_cons] at h
    have hwf' : (minStep d acc a).1 = none → (minStep d acc a).2 = none := by
      unfold minStep
      split
      next ca c hda hacc =>
        split
        · intro hc; exact Option.noConfusion hc
        · intro h1
          rw [hwf h1] at hacc
          exact Option.noConfusion hacc
      next ca hda hacc => intro hc; exact Option.noConfusion hc
      next hda => exact hwf
    obtain ⟨h1, hl⟩ := ih (minStep d acc a) hwf' h
    have hda : acc.1 = none ∧ d a = none := by
      unfold minStep at h1
      split at h1
      next ca c hda hacc =>
        split at h1
        · exact Option.noConfusion h1
        · rw [hwf h1] at hacc
          exact Option.noConfusion hacc
      next ca hda hacc => exact Option.noConfusion h1
      next hda2 => exact ⟨h1, hda2⟩
    refine ⟨hda.1, fun x hx => ?_⟩
    rcases List.mem_cons.mp hx with rfl | hx
    · exact hda.2
    · exact hl x hx

theorem findMinNode_spec (d : ℕ → Option ℚ) (u : List ℕ) (c : ℕ)
    (h : findMinNode d u = some c) :
    c ∈ u ∧ ∃ dc, d c = some dc ∧ ∀ x ∈ u, ∀ cx, d x = some cx → dc ≤ cx := by
  unfold findMinNode at h
  have hacc := minStep_fold_acc d u u (none, none) (fun x hx => hx) (Or.inl rfl)
  rcases hacc with hacc | ⟨x, cx, heq, hxu, hdx⟩
  · rw [hacc] at h
    exact Option.noConfusion h
  · rw [heq] at h
    have hx : x = c := Option.some.inj h
    subst hx
    refine ⟨hxu, cx, hdx, ?_⟩
    intro y hy cy hdy
    have hmin := (minStep_fold_min d u (none, none)).2 y hy
    rw [heq] at hmin
    obtain ⟨ca, hca, hle⟩ := hmin cy hdy
    rw [← Option.some.inj hca] at hle
    exact hle

theorem findMinNode_none (d : ℕ → Option ℚ) (u : List ℕ)
    (h : findMinNode d u = none) : ∀ x ∈ u, d x = none := by
  unfold findMinNode at h
  exact (minStep_fold_none d u (none, none) (fun _ => rfl) h).2

/-- One unfolding of the fuelled main loop. -/
theorem dijkstraLoop_succ (g : Graph) (endNodeId fuel : ℕ) (u : List ℕ)
    (d : ℕ → Option ℚ) (p : ℕ → Option ℕ) :
    dijkstraLoop g endNodeId (fuel + 1) u d p =
      if u.isEmpty then (d, p)
      else
        match findMinNode d u with
        | none => (d, p)
        | some current =>
          if current = endNodeId then (d, p)
          else
            let dp := relaxAll g.edges current (u.erase current) (d, p)
            dijkstraLoop g endNodeId fuel (u.erase current) dp.1 dp.2 := rfl

/-! ## Claim C2: equal endpoints yield no route -/

theorem dijkstraInitDist_eq_some {s x : ℕ} {c : ℚ}
    (h : dijkstraInitDist s x = some c) : x = s ∧ c = 0 := by
  unfold dijkstraInitDist at h
  by_cases hx : x = s
  · rw [if_pos hx] at h
    exact ⟨hx, (Option.some.inj h).symm⟩
  · rw [if_neg hx] at h
    exact Option.noConfusion h

theorem dijkstraInitDist_self (s : ℕ) : dijkstraInitDist s s = some 0 := by
  unfold dijkstraInitDist
  rw [if_pos rfl]

/-- Reconstruction from an all-`null` `previous` map stops at once. -/
theorem reconstructPathAux_initPrev (fuel cur : ℕ) (acc : List ℕ) :
    reconstructPathAux dijkstraInitPrev fuel cur acc = cur :: acc := by
  cases fuel with
  | zero => rfl
  | succ m => rfl

/-- C2: for every graph and every node id of that graph, the solver
with equal start and end returns `null`: the loop breaks the moment the
start is selected (it is the only finite-distance node), and the
reconstructed singleton fails the `path.length > 1` test. -/
theorem dijkstra_self_eq_none (g : Graph) (n : ℕ)
    (hn : n ∈ g.nodes.map Node.id) : dijkstra g n n = none := by
  have hmem : n ∈ initUnvisited g := (mem_initUnvisited g n).mpr hn
  have hne : initUnvisited g ≠ [] := fun h =>
    List.not_mem_nil n (h ▸ hmem)
  obtain ⟨fuel, hfuel⟩ : ∃ fuel, (initUnvisited g).length = fuel + 1 := by
    cases hlen : (initUnvisited g).length with
    | zero => exact absurd (List.length_eq_zero.mp hlen) hne
    | succ m => exact ⟨m, rfl⟩
  have hloop : dijkstraLoop g n (fuel + 1) (initUnvisited g)
      (dijkstraInitDist n) dijkstraInitPrev =
      (dijkstraInitDist n, dijkstraInitPrev) := by
    rw [dijkstraLoop_succ]
    rw [if_neg (by rw [List.isEmpty_iff]; exact hne)]
    cases hfm : findMinNode (dijkstraInitDist n) (initUnvisited g) with
    | none =>
      exfalso
      have := findMinNode_none _ _ hfm n hmem
      rw [dijkstraInitDist_self] at this
      exact Option.noConfusion this
    | some c =>
      obtain ⟨hcu, dc, hdc, _⟩ := findMinNode_spec _ _ _ hfm
      have hc : c = n := (dijkstraInitDist_eq_some hdc).1
      subst hc
      simp
  unfold dijkstra
  simp only [hfuel, hloop, reconstructPathAux_initPrev]
  rfl

/-- C2 witness: a concrete graph and node. -/
theorem dijkstra_self_eq_none_witness : dijkstra exGraph 0 0 = none :=
  dijkstra_self_eq_none exGraph 0 (by decide)

/-! ## Relaxation lemmas -/

theorem relax_neighbor_of_connects (e : Edge) (current x : ℕ)
    (h : edgeConnectsB e current x = true) :
    (if e.from_ = current then some e.to_
     else if e.to_ = current then some e.from_ else none) = some x := by
  unfold edgeConnectsB at h
  simp only [Bool.or_eq_true, Bool.and_eq_true, beq_iff_eq] at h
  rcases h with ⟨h1, h2⟩ | ⟨h1, h2⟩
  · rw [if_pos h1, h2]
  · by_cases hf : e.from_ = current
    · rw [if_pos hf]
      have hx : e.to_ = x := by rw [h1, ← h2, hf]
      rw [hx]
    · rw [if_neg hf, if_pos h1, h2]

theorem relax_neighbor_connects (e : Edge) (current nb : ℕ)
    (h : (if e.from_ = current then some e.to_
          else if e.to_ = current then some e.from_ else none) = some nb) :
    edgeConnectsB e current nb = true := by
  unfold edgeConnectsB
  by_cases h1 : e.from_ = current
  · rw [if_pos h1] at h
    have h2 : e.to_ = nb := Option.some.inj h
    simp [h1, h2]
  · rw [if_neg h1] at h
    by_cases h2 : e.to_ = current
    · rw [if_pos h2] at h
      have h3 : e.from_ = nb := Option.some.inj h
      simp [h2, h3]
    · rw [if_neg h2] at h
      exact Option.noConfusion h

/-- The exhaustive description of a single relaxation step at a point
`x`: either nothing changed there, or `x` is an unvisited neighbor of
`current` through this edge and both maps were updated together to a
strictly smaller distance through `current`. -/
theorem relaxStep_master (current : ℕ) (unvisited : List ℕ)
    (dp : (ℕ → Option ℚ) × (ℕ → Option ℕ)) (e : Edge) (x : ℕ) :
    ((relaxStep current unvisited dp e).1 x = dp.1 x ∧
     (relaxStep current unvisited dp e).2 x = dp.2 x) ∨
    (x ∈ unvisited ∧ edgeConnectsB e current x = true ∧
      ∃ dc, dp.1 current = some dc ∧
        (relaxStep current unvisited dp e).1 x = some (dc + e.weight) ∧
        (relaxStep current unvisited dp e).2 x = some current ∧
        oLT (some (dc + e.weight)) (dp.1 x)) := by
  unfold relaxStep
  simp only
  split
  next hnb => exact Or.inl ⟨rfl, rfl⟩
  next nb hnb =>
    by_cases hmem : nb ∈ unvisited
    · rw [if_pos hmem]
      split
      next dc dn hdc hdn =>
        split
        next hlt =>
          by_cases hx : x = nb
          · subst hx
            refine Or.inr ⟨hmem, relax_neighbor_connects e current x hnb, dc, hdc,
              by simp, by simp, ?_⟩
            intro cb hcb
            rw [hdn] at hcb
            exact ⟨dc + e.weight, rfl, hlt.trans_le (le_of_eq (Option.some.inj hcb))⟩
          · exact Or.inl ⟨by simp [hx], by simp [hx]⟩
        next hlt => exact Or.inl ⟨rfl, rfl⟩
      next dc hdc hdn =>
        by_cases hx : x = nb
        · subst hx
          refine Or.inr ⟨hmem, relax_neighbor_connects e current x hnb, dc, hdc,
            by simp, by simp, ?_⟩
          intro cb hcb
          rw [hdn] at hcb
          exact Option.noConfusion hcb
        · exact Or.inl ⟨by simp [hx], by simp [hx]⟩
      next hdc => exact Or.inl ⟨rfl, rfl⟩
    · rw [if_neg hmem]
      exact Or.inl ⟨rfl, rfl⟩

theorem relaxStep_untouched (current : ℕ) (unvisited : List ℕ)
    (dp : (ℕ → Option ℚ) × (ℕ → Option ℕ)) (e : Edge) (x : ℕ)
    (hx : x ∉ unvisited) :
    (relaxStep current unvisited dp e).1 x = dp.1 x ∧
    (relaxStep current unvisited dp e).2 x = dp.2 x := by
  rcases relaxStep_master current unvisited dp e x with h | ⟨hmem, _⟩
  · exact h
  · exact absurd hmem hx

theorem relaxStep_mono (current : ℕ) (unvisited : List ℕ)
    (dp : (ℕ → Option ℚ) × (ℕ → Option ℕ)) (e : Edge) (x : ℕ) :
    oLE ((relaxStep current unvisited dp e).1 x) (dp.1 x) := by
  rcases relaxStep_master current unvisited dp e x with ⟨h, _⟩ | ⟨_, _, dc, _, hval, _, hlt⟩
  · rw [h]; exact oLE_refl _
  · intro cb hcb
    obtain ⟨ca, hca, hlt'⟩ := hlt cb hcb
    exact ⟨ca, by rw [hval, hca], le_of_lt hlt'⟩

theorem relaxStep_bound (current : ℕ) (unvisited : List ℕ)
    (dp : (ℕ → Option ℚ) × (ℕ → Option ℕ)) (e : Edge) (x : ℕ) (dc : ℚ)
    (hconn : edgeConnectsB e current x = true) (hx : x ∈ unvisited)
    (hdc : dp.1 current = some dc) :
    oLE ((relaxStep current unvisited dp e).1 x) (some (dc + e.weight)) := by
  unfold relaxStep
  simp only
  rw [relax_neighbor_of_connects e current x hconn]
  show oLE ((if x ∈ unvisited then
      match dp.1 current, dp.1 x with
      | some dcc, some dn =>
        if dcc + e.weight < dn then
          (fun k => if k = x then some (dcc + e.weight) else dp.1 k,
           fun k => if k = x then some current else dp.2 k)
        else dp
      | some dcc, none =>
        (fun k => if k = x then some (dcc + e.weight) else dp.1 k,
         fun k => if k = x then some current else dp.2 k)
      | none, _ => dp
    else dp).1 x) (some (dc + e.weight))
  rw [if_pos hx]
  split
  next dc' dn hdc' hdn =>
    rw [hdc] at hdc'
    obtain rfl := Option.some.inj hdc'
    split
    next hlt =>
      intro cb hcb
      exact ⟨dc + e.weight, by simp, le_of_eq (Option.some.inj hcb)⟩
    next hlt =>
      intro cb hcb
      rw [hdn]
      exact ⟨dn, rfl, (not_lt.mp hlt).trans (le_of_eq (Option.some.inj hcb))⟩
  next dc' hdc' hdn =>
    rw [hdc] at hdc'
    obtain rfl := Option.some.inj hdc'
    intro cb hcb
    exact ⟨dc + e.weight, by simp, le_of_eq (Option.some.inj hcb)⟩
  next hdc' =>
    rw [hdc'] at hdc
    exact Option.noConfusion hdc

theorem relaxAll_untouched (current : ℕ) (unvisited : List ℕ) :
    ∀ (edges : List Edge) (dp : (ℕ → Option ℚ) × (ℕ → Option ℕ)) (x : ℕ),
      x ∉ unvisited →
      (relaxAll edges current unvisited dp).1 x = dp.1 x ∧
      (relaxAll edges current unvisited dp).2 x = dp.2 x := by
  intro edges
  induction edges with
  | nil => intro dp x _; exact ⟨rfl, rfl⟩
  | cons e es ih =>
    intro dp x hx
    obtain ⟨h1, h2⟩ := ih (relaxStep current unvisited dp e) x hx
    obtain ⟨h3, h4⟩ := relaxStep_untouched current unvisited dp e x hx
    exact ⟨h1.trans h3, h2.trans h4⟩

theorem relaxAll_mono (current : ℕ) (unvisited : List ℕ) :
    ∀ (edges : List Edge) (dp : (ℕ → Option ℚ) × (ℕ → Option ℕ)) (x : ℕ),
      oLE ((relaxAll edges current unvisited dp).1 x) (dp.1 x) := by
  intro edges
  induction edges with
  | nil => intro dp x; exact oLE_refl _
  | cons e es ih =>
    intro dp x
    exact oLE_trans (ih (relaxStep current unvisited dp e) x)
      (relaxStep_mono current unvisited dp e x)

/-- The exhaustive description of a full relaxation sweep at a point
`x`, for a `current` outside the unvisited set (as in the algorithm,
which deletes `current` before relaxing): either nothing changed at `x`,
or `x` is an unvisited neighbor of `current` and both maps were set
together through some connecting edge. -/
theorem relaxAll_master (current : ℕ) (unvisited : List ℕ)
    (hcur : current ∉ unvisited) :
    ∀ (edges : List Edge) (dp : (ℕ → Option ℚ) × (ℕ → Option ℕ)) (x : ℕ),
      ((relaxAll edges current unvisited dp).1 x = dp.1 x ∧
       (relaxAll edges current unvisited dp).2 x = dp.2 x) ∨
      (x ∈ unvisited ∧ ∃ e ∈ edges, edgeConnectsB e current x = true ∧
        ∃ dc, dp.1 current = some dc ∧
          (relaxAll edges current unvisited dp).1 x = some (dc + e.weight) ∧
          (relaxAll edges current unvisited dp).2 x = some current) := by
  intro edges
  induction edges with
  | nil => intro dp x; exact Or.inl ⟨rfl, rfl⟩
  | cons e es ih =>
    intro dp x
    have hcurstep : (relaxStep current unvisited dp e).1 current = dp.1 current :=
      (relaxStep_untouched current unvisited dp e current hcur).1
    rcases ih (relaxStep current unvisited dp e) x with ⟨h1, h2⟩ | ⟨hxu, e', he', hconn, dc, hdc, hv1, hv2⟩
    · rcases relaxStep_master current unvisited dp e x with ⟨h3, h4⟩ | ⟨hxu, hconn, dc, hdc, hv1, hv2, _⟩
      · exact Or.inl ⟨h1.trans h3, h2.trans h4⟩
      · exact Or.inr ⟨hxu, e, List.mem_cons_self e es, hconn, dc, hdc,
          h1.trans hv1, h2.trans hv2⟩
    · rw [hcurstep] at hdc
      exact Or.inr ⟨hxu, e', List.mem_cons_of_mem e he', hconn, dc, hdc, hv1, hv2⟩

theorem relaxAll_bound (current : ℕ) (unvisited : List ℕ)
    (hcur : current ∉ unvisited) :
    ∀ (edges : List Edge) (dp : (ℕ → Option ℚ) × (ℕ → Option ℕ))
      (e : Edge) (x : ℕ) (dc : ℚ),
      e ∈ edges → edgeConnectsB e current x = true → x ∈ unvisited →
      dp.1 current = some dc →
      oLE ((relaxAll edges current unvisited dp).1 x) (some (dc + e.weight)) := by
  intro edges
  induction edges with
  | nil => intro dp e x dc he; exact absurd he (List.not_mem_nil e)
  | cons e' es ih =>
    intro dp e x dc he hconn hx hdc
    have hcurstep : (relaxStep current unvisited dp e').1 current = dp.1 current :=
      (relaxStep_untouched current unvisited dp e' current hcur).1
    rcases List.mem_cons.mp he with rfl | he
    · exact oLE_trans (relaxAll_mono current unvisited es _ x)
        (relaxStep_bound current unvisited dp e x dc hconn hx hdc)
    · exact ih (relaxStep current unvisited dp e') e x dc he hconn hx
        (by rw [hcurstep, hdc])

/-! ## Step weights and path costs -/

theorem minList_fold_mem :
    ∀ (l : List ℚ) (acc : Option ℚ) (m : ℚ),
      l.foldl (fun acc x =>
        match acc with
        | none => some x
        | some mm => some (min mm x)) acc = some m →
      acc = some m ∨ m ∈ l := by
  intro l
  induction l with
  | nil => intro acc m h; exact Or.inl h
  | cons x xs ih =>
    intro acc m h
    rw [List.foldl_cons] at h
    rcases ih _ m h with hstep | hmem
    · cases hacc : acc with
      | none =>
        rw [hacc] at hstep
        simp only at hstep
        exact Or.inr (List.mem_cons.mpr (Or.inl (Option.some.inj hstep).symm))
      | some a =>
        rw [hacc] at hstep
        simp only at hstep
        have hm : min a x = m := Option.some.inj hstep
        rcases min_choice a x with hc | hc
        · refine Or.inl ?_
          rw [hc] at hm
          exact congrArg some hm
        · refine Or.inr (List.mem_cons.mpr (Or.inl ?_))
          rw [hc] at hm
          exact hm.symm
    · exact Or.inr (List.mem_cons_of_mem x hmem)

theorem minList_fold_le :
    ∀ (l : List ℚ) (acc : Option ℚ) (m : ℚ),
      l.foldl (fun acc x =>
        match acc with
        | none => some x
        | some mm => some (min mm x)) acc = some m →
      (∀ a, acc = some a → m ≤ a) ∧ ∀ x ∈ l, m ≤ x := by
  intro l
  induction l with
  | nil =>
    intro acc m h
    exact ⟨fun a ha => by rw [ha] at h; exact le_of_eq (Option.some.inj h).symm,
      fun x hx => absurd hx (List.not_mem_nil x)⟩
  | cons x xs ih =>
    intro acc m h
    rw [List.foldl_cons] at h
    obtain ⟨h1, h2⟩ := ih _ m h
    have hx : m ≤ x := by
      cases hacc : acc with
      | none =>
        have := h1 x (by rw [hacc])
        exact this
      | some a =>
        have := h1 (min a x) (by rw [hacc])
        exact this.trans (min_le_right a x)
    refine ⟨?_, ?_⟩
    · intro a ha
      have := h1 (min a x) (by rw [ha])
      exact this.trans (min_le_left a x)
    · intro y hy
      rcases List.mem_cons.mp hy with rfl | hy
      · exact hx
      · exact h2 y hy

theorem minList_fold_isSome :
    ∀ (l : List ℚ) (acc : Option ℚ), acc.isSome = true →
      (l.foldl (fun acc x =>
        match acc with
        | none => some x
        | some mm => some (min mm x)) acc).isSome = true := by
  intro l
  induction l with
  | nil => intro acc h; exact h
  | cons x xs ih =>
    intro acc h
    rw [List.foldl_cons]
    apply ih
    cases hacc : acc with
    | none => rw [hacc] at h; exact Bool.noConfusion h
    | some a => rfl

theorem stepWeight_exists (g : Graph) (a b : ℕ) (w : ℚ)
    (h : stepWeight g a b = some w) :
    ∃ e ∈ g.edges, edgeConnectsB e a b = true ∧ e.weight = w := by
  unfold stepWeight minList at h
  rcases minList_fold_mem _ none w h with hacc | hmem
  · exact Option.noConfusion hacc
  · obtain ⟨e, he, hew⟩ := List.mem_map.mp hmem
    have hfe := List.mem_filter.mp he
    exact ⟨e, hfe.1, hfe.2, hew⟩

theorem stepWeight_le (g : Graph) (a b : ℕ) (e : Edge)
    (he : e ∈ g.edges) (hc : edgeConnectsB e a b = true) :
    ∃ w, stepWeight g a b = some w ∧ w ≤ e.weight := by
  have hmemf : e ∈ g.edges.filter (fun e => edgeConnectsB e a b) :=
    List.mem_filter.mpr ⟨he, hc⟩
  have hmemw : e.weight ∈ (g.edges.filter (fun e => edgeConnectsB e a b)).map Edge.weight :=
    List.mem_map_of_mem Edge.weight hmemf
  have hne : (g.edges.filter (fun e => edgeConnectsB e a b)).map Edge.weight ≠ [] :=
    fun hnil => List.not_mem_nil _ (hnil ▸ hmemw)
  obtain ⟨w, hw⟩ : ∃ w, stepWeight g a b = some w := by
    unfold stepWeight minList
    cases hl : (g.edges.filter (fun e => edgeConnectsB e a b)).map Edge.weight with
    | nil => exact absurd hl hne
    | cons y ys =>
      rw [List.foldl_cons]
      have := minList_fold_isSome ys (some y) rfl
      exact Option.isSome_iff_exists.mp this
  refine ⟨w, hw, ?_⟩
  unfold stepWeight minList at hw
  exact (minList_fold_le _ none w hw).2 e.weight hmemw

theorem stepWeight_nonneg (g : Graph)
    (hw : ∀ e ∈ g.edges, 0 ≤ e.weight) (a b : ℕ) (w : ℚ)
    (h : stepWeight g a b = some w) : 0 ≤ w := by
  obtain ⟨e, he, _, hew⟩ := stepWeight_exists g a b w h
  exact hew ▸ hw e he

theorem stepWeight_isSome_of_connected (g : Graph) (a b : ℕ)
    (h : Connected g a b) : ∃ w, stepWeight g a b = some w := by
  obtain ⟨e, he, hc⟩ := h
  obtain ⟨w, hw, _⟩ := stepWeight_le g a b e he hc
  exact ⟨w, hw⟩

theorem pathCost_nonneg (g : Graph) (hw : ∀ e ∈ g.edges, 0 ≤ e.weight) :
    ∀ (W : List ℕ) (c : ℚ), pathCost g W = some c → 0 ≤ c := by
  intro W
  induction W with
  | nil => intro c h; exact le_of_eq (Option.some.inj h)
  | cons a W ih =>
    intro c h
    cases W with
    | nil => exact le_of_eq (Option.some.inj h)
    | cons b rest =>
      unfold pathCost at h
      split at h
      next w cr hsw hpc =>
        have h1 : 0 ≤ w := stepWeight_nonneg g hw a b w hsw
        have h2 : 0 ≤ cr := ih cr hpc
        rw [← Option.some.inj h]
        exact add_nonneg h1 h2
      next h1 => exact Option.noConfusion h

theorem pathCost_append (g : Graph) :
    ∀ (W : List ℕ) (y z : ℕ) (c w : ℚ),
      W.getLast? = some y → pathCost g W = some c → stepWeight g y z = some w →
      pathCost g (W ++ [z]) = some (c + w) := by
  intro W
  induction W with
  | nil => intro y z c w hy; exact absurd hy (by simp)
  | cons a W ih =>
    intro y z c w hy hc hsw
    cases W with
    | nil =>
      have hya : y = a := (Option.some.inj hy).symm
      subst hya
      have hc0 : c = 0 := (Option.some.inj hc).symm
      subst hc0
      show pathCost g (y :: [z]) = some (0 + w)
      unfold pathCost
      rw [hsw]
      show some (w + 0) = some (0 + w)
      rw [zero_add, add_zero]
    | cons b rest =>
      have hy' : (b :: rest).getLast? = some y := by
        rw [← hy]
        exact (List.getLast?_cons_cons ..).symm
      unfold pathCost at hc
      split at hc
      next w1 c1 hsw1 hpc1 =>
        have hcsum : c = w1 + c1 := (Option.some.inj hc).symm
        subst hcsum
        have hrec := ih y z c1 w hy' hpc1 hsw
        show pathCost g (a :: (b :: rest ++ [z])) = some (w1 + c1 + w)
        have hshape : (b :: rest ++ [z]) = b :: (rest ++ [z]) := rfl
        rw [hshape]
        unfold pathCost
        rw [hsw1]
        rw [show pathCost g (b :: (rest ++ [z])) = some (c1 + w) from hrec]
        rw [add_assoc]
      next h1 => exact Option.noConfusion hc

theorem pathCost_append_inv (g : Graph) :
    ∀ (W : List ℕ) (y z : ℕ) (cw : ℚ),
      W.getLast? = some y → pathCost g (W ++ [z]) = some cw →
      ∃ c w, pathCost g W = some c ∧ stepWeight g y z = some w ∧ cw = c + w := by
  intro W
  induction W with
  | nil => intro y z cw hy; exact absurd hy (by simp)
  | cons a W ih =>
    intro y z cw hy hcw
    cases W with
    | nil =>
      have hya : y = a := (Option.some.inj hy).symm
      subst hya
      have hcw' : pathCost g (y :: [z]) = some cw := hcw
      unfold pathCost at hcw'
      split at hcw'
      next w1 c1 hsw1 hpc1 =>
        have hc1 : c1 = 0 := (Option.some.inj hpc1).symm
        subst hc1
        refine ⟨0, w1, rfl, hsw1, ?_⟩
        have := (Option.some.inj hcw').symm
        rw [this, add_zero, zero_add]
      next h1 => exact Option.noConfusion hcw'
    | cons b rest =>
      have hy' : (b :: rest).getLast? = some y := by
        rw [← hy]
        exact (List.getLast?_cons_cons ..).symm
      have hcw' : pathCost g (a :: (b :: (rest ++ [z]))) = some cw := hcw
      unfold pathCost at hcw'
      split at hcw'
      next w1 c1 hsw1 hpc1 =>
        obtain ⟨c2, w2, hpc2, hsw2, hc2⟩ := ih y z c1 hy' hpc1
        refine ⟨w1 + c2, w2, ?_, hsw2, ?_⟩
        · show pathCost g (a :: b :: rest) = some (w1 + c2)
          unfold pathCost
          rw [hsw1, hpc2]
        · rw [← Option.some.inj hcw', hc2, add_assoc]
      next h1 => exact Option.noConfusion hcw'

/-! ## Walks -/

theorem IsWalk_single (g : Graph) (x : ℕ) (hx : x ∈ g.nodes.map Node.id) :
    IsWalk g x x [x] :=
  ⟨rfl, rfl, fun z hz => by rw [List.mem_singleton.mp hz]; exact hx,
   List.chain'_singleton x⟩

theorem IsWalk_append_inv (g : Graph) (s z y : ℕ) (W : List ℕ)
    (hne : W ≠ []) (hy : W.getLast? = some y) (h : IsWalk g s z (W ++ [z])) :
    IsWalk g s y W ∧ Connected g y z := by
  obtain ⟨hhead, _, hmem, hchain⟩ := h
  rw [List.head?_append_of_ne_nil W hne] at hhead
  obtain ⟨hcW, _, hconn⟩ := List.chain'_append.mp hchain
  exact ⟨⟨hhead, hy, fun x hx => hmem x (List.mem_append.mpr (Or.inl hx)), hcW⟩,
    hconn y hy z rfl⟩

/-- The frontier lower bound: under the loop invariant, every costed
walk from the start to a still-unvisited node passes through some
unvisited node whose tentative distance is at most the walk's cost. -/
theorem frontier_lb (g : Graph) (s : ℕ)
    (hw : ∀ e ∈ g.edges, 0 ≤ e.weight)
    (u : List ℕ) (d : ℕ → Option ℚ) (p : ℕ → Option ℕ)
    (inv : DInv g s u d p) :
    ∀ (W : List ℕ) (z : ℕ) (cw : ℚ),
      IsWalk g s z W → pathCost g W = some cw → z ∈ u →
      ∃ y ∈ u, ∃ cy, d y = some cy ∧ cy ≤ cw := by
  intro W
  induction W using List.reverseRecOn with
  | nil =>
    intro z cw hwalk
    exact absurd hwalk.1 (by simp)
  | append_singleton W zl ih =>
    intro z cw hwalk hcost hz
    have hzl : z = zl := by
      have h1 := hwalk.2.1
      rw [List.getLast?_concat] at h1
      exact (Option.some.inj h1).symm
    subst hzl
    by_cases hWnil : W = []
    · subst hWnil
      have hsz : z = s := by
        have h1 := hwalk.1
        exact Option.some.inj h1
      subst hsz
      have hcw0 : cw = 0 := (Option.some.inj hcost).symm
      exact ⟨z, hz, 0, inv.hds, le_of_eq hcw0.symm⟩
    · obtain ⟨y, hy⟩ := Option.isSome_iff_exists.mp
        (List.getLast?_isSome.mpr hWnil)
      obtain ⟨hwalkW, hconn⟩ := IsWalk_append_inv g s z y W hWnil hy hwalk
      obtain ⟨c, wst, hpcW, hsw, hcw⟩ := pathCost_append_inv g W y z cw hy hcost
      have hwst : 0 ≤ wst := stepWeight_nonneg g hw y z wst hsw
      by_cases hyu : y ∈ u
      · obtain ⟨y', hy'u, cy', hdy', hle⟩ := ih y c hwalkW hpcW hyu
        exact ⟨y', hy'u, cy', hdy', by rw [hcw]; exact hle.trans (by linarith)⟩
      · have hyV : y ∈ g.nodes.map Node.id :=
          hwalkW.2.2.1 y (List.mem_of_getLast?_eq_some hy)
        have hyu0 : y ∈ initUnvisited g := (mem_initUnvisited g y).mpr hyV
        obtain ⟨cy, hdy⟩ := inv.hfin y hyu0 hyu
        have hcy : cy ≤ c := inv.hlb y hyu0 hyu W c hwalkW hpcW cy hdy
        obtain ⟨e, he, hec, hew⟩ := stepWeight_exists g y z wst hsw
        obtain ⟨cz, hdz, hcz⟩ := inv.hrelaxed y hyu0 hyu e he z hec hz cy hdy
        refine ⟨z, hz, cz, hdz, ?_⟩
        rw [hcw, ← hew] at *
        linarith


/-! ## The loop invariant: initialization and preservation -/

theorem DInv_init (g : Graph) (s : ℕ) :
    DInv g s (initUnvisited g) (dijkstraInitDist s) dijkstraInitPrev := by
  constructor
  · exact List.Sublist.refl _
  · exact dijkstraInitDist_self s
  · intro x cx h
    rw [(dijkstraInitDist_eq_some h).2]
  · intro x cx h _
    exact (dijkstraInitDist_eq_some h).1
  · intro x y h
    exact Option.noConfusion h
  · intro x hx hnx
    exact absurd hx hnx
  · intro x hx hnx
    exact absurd hx hnx
  · intro y hy hny
    exact absurd hy hny
  · exact ⟨fun _ => 0, fun x hx hnx => absurd hx hnx,
      fun x y hp => Option.noConfusion hp⟩

theorem DInv_step (g : Graph) (s : ℕ) (hw : ∀ e ∈ g.edges, 0 ≤ e.weight)
    (u : List ℕ) (d : ℕ → Option ℚ) (p : ℕ → Option ℕ)
    (inv : DInv g s u d p) (c : ℕ)
    (hfm : findMinNode d u = some c) :
    DInv g s (u.erase c)
      (relaxAll g.edges c (u.erase c) (d, p)).1
      (relaxAll g.edges c (u.erase c) (d, p)).2 := by
  obtain ⟨hcu, dc, hdc, hmin⟩ := findMinNode_spec d u c hfm
  have hnodup : u.Nodup := List.Nodup.sublist inv.hsub (initUnvisited_nodup g)
  have hmem_erase : ∀ x, x ∈ u.erase c ↔ x ≠ c ∧ x ∈ u :=
    fun x => hnodup.mem_erase_iff
  have hcerase : c ∉ u.erase c := fun h => ((hmem_erase c).mp h).1 rfl
  have hsettled : ∀ x, x ∉ u → x ∉ u.erase c :=
    fun x hx hmem => hx ((hmem_erase x).mp hmem).2
  have huntouched := relaxAll_untouched c (u.erase c) g.edges (d, p)
  have hmono := relaxAll_mono c (u.erase c) g.edges (d, p)
  have hmaster := relaxAll_master c (u.erase c) hcerase g.edges (d, p)
  have hrc : (relaxAll g.edges c (u.erase c) (d, p)).1 c = d c :=
    (huntouched c hcerase).1
  -- the selection lower bound for the newly settled node
  have hclb : ∀ W cw, IsWalk g s c W → pathCost g W = some cw → dc ≤ cw := by
    intro W cw hwalk hcost
    obtain ⟨y, hyu, cy, hdy, hle⟩ :=
      frontier_lb g s hw u d p inv W c cw hwalk hcost hcu
    exact (hmin y hyu cy hdy).trans hle
  have hsub' : (u.erase c).Sublist (initUnvisited g) :=
    (List.erase_sublist c u).trans inv.hsub
  have hnn' : ∀ x cx, (relaxAll g.edges c (u.erase c) (d, p)).1 x = some cx →
      0 ≤ cx := by
    intro x cx hx
    rcases hmaster x with ⟨h1, _⟩ | ⟨_, e, he, _, dc', hdc', hv1, _⟩
    · rw [h1] at hx
      exact inv.hnn x cx hx
    · rw [hv1] at hx
      rw [← Option.some.inj hx]
      exact add_nonneg (inv.hnn c dc' hdc') (hw e he)
  constructor
  · exact hsub'
  · -- the start keeps distance 0
    obtain ⟨ca, hca, hle⟩ := hmono s 0 inv.hds
    have h0 : 0 ≤ ca := hnn' s ca hca
    rw [hca]
    rw [le_antisymm hle h0]
  · exact hnn'
  · intro x cx hx hp
    rcases hmaster x with ⟨h1, h2⟩ | ⟨_, _, _, _, _, _, _, hv2⟩
    · rw [h1] at hx
      rw [h2] at hp
      exact inv.hterm x cx hx hp
    · rw [hv2] at hp
      exact Option.noConfusion hp
  · intro x y hp
    rcases hmaster x with ⟨h1, h2⟩ | ⟨hxu, e, he, hconn, dc', hdc', hv1, hv2⟩
    · rw [h2] at hp
      obtain ⟨hx0, hy0, hyu, e, he, hconn, cy, hdy, hdx⟩ := inv.hprev x y hp
      have hyerase : y ∉ u.erase c := hsettled y hyu
      refine ⟨hx0, hy0, hyerase, e, he, hconn, cy, ?_, ?_⟩
      · rw [(huntouched y hyerase).1]
        exact hdy
      · rw [h1]
        exact hdx
    · have hyc : y = c := by
        rw [hv2] at hp
        exact (Option.some.inj hp).symm
      subst hyc
      have hxu' : x ∈ u := ((hmem_erase x).mp hxu).2
      refine ⟨inv.hsub.subset hxu', inv.hsub.subset hcu, hcerase, e, he, hconn,
        dc', ?_, ?_⟩
      · rw [hrc]
        exact hdc'
      · exact hv1
  · intro x hx0 hxe
    by_cases hxu : x ∈ u
    · have hxc : x = c := by
        by_contra hne
        exact hxe ((hmem_erase x).mpr ⟨hne, hxu⟩)
      subst hxc
      exact ⟨dc, by rw [hrc]; exact hdc⟩
    · obtain ⟨cx, hcx⟩ := inv.hfin x hx0 hxu
      exact ⟨cx, by rw [(huntouched x (hsettled x hxu)).1]; exact hcx⟩
  · intro x hx0 hxe W cw hwalk hcost cx hcx
    by_cases hxu : x ∈ u
    · have hxc : x = c := by
        by_contra hne
        exact hxe ((hmem_erase x).mpr ⟨hne, hxu⟩)
      subst hxc
      rw [hrc] at hcx
      rw [hdc] at hcx
      rw [Option.some.inj hcx] at hclb
      exact hclb W cw hwalk hcost
    · rw [(huntouched x (hsettled x hxu)).1] at hcx
      exact inv.hlb x hx0 hxu W cw hwalk hcost cx hcx
  · intro y hy0 hye e he x hconn hxe cy hcy
    by_cases hyu : y ∈ u
    · have hyc : y = c := by
        by_contra hne
        exact hye ((hmem_erase y).mpr ⟨hne, hyu⟩)
      subst hyc
      rw [hrc] at hcy
      have hbound := relaxAll_bound y (u.erase y) hcerase g.edges (d, p)
        e x cy he hconn hxe hcy
      obtain ⟨cx, hcx, hle⟩ := hbound (cy + e.weight) rfl
      exact ⟨cx, hcx, hle⟩
    · have hye' : y ∉ u.erase c := hsettled y hyu
      rw [(huntouched y hye').1] at hcy
      have hxu : x ∈ u := ((hmem_erase x).mp hxe).2
      obtain ⟨cxo, hcxo, hleo⟩ := inv.hrelaxed y hy0 hyu e he x hconn hxu cy hcy
      obtain ⟨cx, hcx, hle⟩ := hmono x cxo hcxo
      exact ⟨cx, hcx, hle.trans hleo⟩
  · obtain ⟨t, ht1, ht2⟩ := inv.hrank
    have hcu' : c ∈ u := hcu
    have hlen : (u.erase c).length = u.length - 1 := List.length_erase_of_mem hcu'
    have hul : 1 ≤ u.length := List.length_pos.mpr (fun h => by
      rw [h] at hcu'
      exact List.not_mem_nil c hcu')
    have hulen : u.length ≤ (initUnvisited g).length := inv.hsub.length_le
    refine ⟨fun x => if x = c then (initUnvisited g).length - u.length else t x,
      ?_, ?_⟩
    · intro x hx0 hxe
      show (if x = c then (initUnvisited g).length - u.length else t x) <
        (initUnvisited g).length - (u.erase c).length
      rw [hlen]
      by_cases hxc : x = c
      · rw [if_pos hxc]
        omega
      · rw [if_neg hxc]
        have hxu : x ∉ u := fun hxu =>
          hxe ((hmem_erase x).mpr ⟨hxc, hxu⟩)
        have := ht1 x hx0 hxu
        omega
    · intro x y hp hx0 hxe
      show (if y = c then (initUnvisited g).length - u.length else t y) <
        (if x = c then (initUnvisited g).length - u.length else t x)
      rcases hmaster x with ⟨h1, h2⟩ | ⟨hxu, _⟩
      · rw [h2] at hp
        obtain ⟨_, hy0, hyu, _⟩ := inv.hprev x y hp
        have hyc : y ≠ c := fun h => hyu (h ▸ hcu')
        rw [if_neg hyc]
        by_cases hxc : x = c
        · rw [if_pos hxc]
          exact ht1 y hy0 hyu
        · rw [if_neg hxc]
          have hxu : x ∉ u := fun hxu =>
            hxe ((hmem_erase x).mpr ⟨hxc, hxu⟩)
          exact ht2 x y hp hx0 hxu
      · exact absurd hxu hxe

/-- Running the early-exit loop from an invariant state yields an
invariant state; moreover, whenever the destination's final tentative
distance is finite, it lower-bounds the cost of every walk from the
start to the destination. -/
theorem dijkstraLoop_post (g : Graph) (s e : ℕ)
    (hw : ∀ ed ∈ g.edges, 0 ≤ ed.weight) :
    ∀ (fuel : ℕ) (u : List ℕ) (d : ℕ → Option ℚ) (p : ℕ → Option ℕ),
      fuel = u.length → DInv g s u d p →
      ∃ u', DInv g s u' (dijkstraLoop g e fuel u d p).1
          (dijkstraLoop g e fuel u d p).2 ∧
        ((dijkstraLoop g e fuel u d p).2 e = none ∨
          ∀ ce, (dijkstraLoop g e fuel u d p).1 e = some ce →
            ∀ W cw, IsWalk g s e W → pathCost g W = some cw → ce ≤ cw) := by
  intro fuel
  induction fuel with
  | zero =>
    intro u d p hlen inv
    have hunil : u = [] := List.length_eq_zero.mp hlen.symm
    refine ⟨u, inv, ?_⟩
    cases hp : p e with
    | none => exact Or.inl hp
    | some y =>
      right
      intro ce hce W cw hwalk hcost
      obtain ⟨he0, _⟩ := inv.hprev e y hp
      have heu : e ∉ u := by rw [hunil]; exact List.not_mem_nil e
      exact inv.hlb e he0 heu W cw hwalk hcost ce hce
  | succ n ih =>
    intro u d p hlen inv
    have hne : u ≠ [] := by
      intro h
      rw [h] at hlen
      exact Nat.noConfusion hlen
    have hnemp : ¬ (u.isEmpty = true) := by simpa [List.isEmpty_iff] using hne
    cases hfm : findMinNode d u with
    | none =>
      have hloopeq : dijkstraLoop g e (n + 1) u d p = (d, p) := by
        rw [dijkstraLoop_succ, if_neg hnemp, hfm]
      rw [hloopeq]
      refine ⟨u, inv, ?_⟩
      cases hp : p e with
      | none => exact Or.inl hp
      | some y =>
        right
        intro ce hce W cw hwalk hcost
        obtain ⟨he0, _⟩ := inv.hprev e y hp
        by_cases heu : e ∈ u
        · have hce' : d e = some ce := hce
          rw [findMinNode_none d u hfm e heu] at hce'
          exact Option.noConfusion hce'
        · exact inv.hlb e he0 heu W cw hwalk hcost ce hce
    | some c =>
      by_cases hcise : c = e
      · have hloopeq : dijkstraLoop g e (n + 1) u d p = (d, p) := by
          rw [dijkstraLoop_succ, if_neg hnemp, hfm]
          show (if c = e then (d, p) else _) = (d, p)
          rw [if_pos hcise]
        rw [hloopeq]
        subst hcise
        refine ⟨u, inv, Or.inr ?_⟩
        intro ce hdce W cw hwalk hcost
        obtain ⟨hcu, dcv, hdc, hmin⟩ := findMinNode_spec d u c hfm
        have hdce' : d c = some ce := hdce
        rw [hdc] at hdce'
        obtain rfl := Option.some.inj hdce'
        obtain ⟨y, hyu, cy, hdy, hle⟩ :=
          frontier_lb g s hw u d p inv W c cw hwalk hcost hcu
        exact (hmin y hyu cy hdy).trans hle
      · have hloopeq : dijkstraLoop g e (n + 1) u d p =
            dijkstraLoop g e n (u.erase c)
              (relaxAll g.edges c (u.erase c) (d, p)).1
              (relaxAll g.edges c (u.erase c) (d, p)).2 := by
          rw [dijkstraLoop_succ, if_neg hnemp, hfm]
          show (if c = e then (d, p) else _) = _
          rw [if_neg hcise]
        rw [hloopeq]
        have hstep := DInv_step g s hw u d p inv c hfm
        have hlen' : n = (u.erase c).length := by
          obtain ⟨hcu, _⟩ := findMinNode_spec d u c hfm
          rw [List.length_erase_of_mem hcu, ← hlen]
          omega
        exact ih (u.erase c) _ _ hlen' hstep

/-! ## Path reconstruction -/

theorem PrevChainR_length_pos (p : ℕ → Option ℕ) :
    ∀ {x : ℕ} {L : List ℕ}, PrevChainR p x L → 1 ≤ L.length := by
  intro x L h
  induction h with
  | base x _ => exact le_refl 1
  | step x y L _ _ ih => simp

theorem reconstructPathAux_none (p : ℕ → Option ℕ) (fuel cur : ℕ)
    (acc : List ℕ) (h : p cur = none) :
    reconstructPathAux p fuel cur acc = cur :: acc := by
  cases fuel with
  | zero => rfl
  | succ m =>
    unfold reconstructPathAux
    rw [h]

/-- With enough fuel, the reconstruction walk traverses exactly the
`previous`-chain. -/
theorem reconstructPathAux_eq_chain (p : ℕ → Option ℕ) :
    ∀ {x : ℕ} {L : List ℕ}, PrevChainR p x L →
      ∀ (fuel : ℕ) (acc : List ℕ), L.length ≤ fuel + 1 →
      reconstructPathAux p fuel x acc = L ++ acc := by
  intro x L h
  induction h with
  | base x hx =>
    intro fuel acc _
    rw [reconstructPathAux_none p fuel x acc hx]
    rfl
  | step x y L hx hchain ih =>
    intro fuel acc hlen
    have hL1 : 1 ≤ L.length := PrevChainR_length_pos p hchain
    have hlen2 : 2 ≤ L.length + 1 := by omega
    rw [List.length_append, List.length_singleton] at hlen
    obtain ⟨f, rfl⟩ : ∃ f, fuel = f + 1 := by
      cases fuel with
      | zero => omega
      | succ f => exact ⟨f, rfl⟩
    unfold reconstructPathAux
    rw [hx]
    show reconstructPathAux p f y (x :: acc) = L ++ [x] ++ acc
    rw [ih f (x :: acc) (by omega)]
    rw [List.append_cons]

theorem IsWalk_snoc (g : Graph) (s y x : ℕ) (L : List ℕ)
    (h : IsWalk g s y L) (hconn : Connected g y x)
    (hx : x ∈ g.nodes.map Node.id) : IsWalk g s x (L ++ [x]) := by
  obtain ⟨hhead, hlast, hmem, hchain⟩ := h
  have hne : L ≠ [] := by
    intro hnil
    rw [hnil] at hhead
    exact Option.noConfusion hhead
  refine ⟨?_, ?_, ?_, ?_⟩
  · rw [List.head?_append_of_ne_nil L hne]
    exact hhead
  · exact List.getLast?_concat L
  · intro z hz
    rcases List.mem_append.mp hz with hz | hz
    · exact hmem z hz
    · rw [List.mem_singleton.mp hz]
      exact hx
  · refine List.chain'_append.mpr ⟨hchain, List.chain'_singleton x, ?_⟩
    intro a ha b hb
    have hay : a = y := by
      rw [hlast] at ha
      exact (by simpa using ha : y = a).symm
    have hbx : b = x := (by simpa using hb : x = b).symm
    rw [hay, hbx]
    exact hconn

/-- Every settled node has a `previous`-chain back to the start: a
bona fide walk whose cost is at most the node's tentative distance,
with length bounded through the settlement rank. -/
theorem DInv_chain (g : Graph) (s : ℕ) (u : List ℕ) (d : ℕ → Option ℚ)
    (p : ℕ → Option ℕ) (inv : DInv g s u d p) (t : ℕ → ℕ)
    (ht2 : ∀ x y, p x = some y → x ∈ initUnvisited g → x ∉ u → t y < t x) :
    ∀ (k : ℕ) (x : ℕ), t x < k → x ∈ initUnvisited g → x ∉ u →
      ∃ L, PrevChainR p x L ∧ L.length ≤ t x + 1 ∧
        L.getLast? = some x ∧ IsWalk g s x L ∧
        (∀ z ∈ L, z ∈ initUnvisited g ∧ z ∉ u) ∧
        ∀ cx, d x = some cx → ∃ cL, pathCost g L = some cL ∧ cL ≤ cx := by
  intro k
  induction k with
  | zero => intro x hxk; omega
  | succ k ih =>
    intro x hxk hx0 hxu
    cases hp : p x with
    | none =>
      obtain ⟨cx, hdx⟩ := inv.hfin x hx0 hxu
      have hxs : x = s := inv.hterm x cx hdx hp
      refine ⟨[x], PrevChainR.base x hp, by simp, rfl, ?_, ?_, ?_⟩
      · rw [hxs]
        exact IsWalk_single g s ((mem_initUnvisited g s).mp (hxs ▸ hx0))
      · intro z hz
        rw [List.mem_singleton.mp hz]
        exact ⟨hx0, hxu⟩
      · intro cx' hdx'
        exact ⟨0, rfl, inv.hnn x cx' hdx'⟩
    | some y =>
      obtain ⟨hx0', hy0, hyu, e, he, hconn, cy, hdy, hdx⟩ := inv.hprev x y hp
      have hty : t y < t x := ht2 x y hp hx0 hxu
      obtain ⟨L', hchain', hlen', hlast', hwalk', hmem', hcost'⟩ :=
        ih y (by omega) hy0 hyu
      have hxV : x ∈ g.nodes.map Node.id := (mem_initUnvisited g x).mp hx0
      refine ⟨L' ++ [x], PrevChainR.step x y L' hp hchain', ?_,
        List.getLast?_concat L', ?_, ?_, ?_⟩
      · rw [List.length_append, List.length_singleton]
        omega
      · exact IsWalk_snoc g s y x L' hwalk' ⟨e, he, hconn⟩ hxV
      · intro z hz
        rcases List.mem_append.mp hz with hz | hz
        · exact hmem' z hz
        · rw [List.mem_singleton.mp hz]
          exact ⟨hx0, hxu⟩
      · intro cx hdx2
        have hcxeq : cx = cy + e.weight := by
          rw [hdx] at hdx2
          exact (Option.some.inj hdx2).symm
        obtain ⟨cL', hpc', hle'⟩ := hcost' cy hdy
        obtain ⟨w, hsw, hwle⟩ := stepWeight_le g y x e he hconn
        refine ⟨cL' + w, pathCost_append g L' y x cL' w hlast' hpc' hsw, ?_⟩
        rw [hcxeq]
        exact add_le_add hle' hwle

/-- C1: whenever `dijkstra` returns a path, that path starts at
`startNodeId`, ends at `endNodeId`, walks along edges of the graph
through nodes of the graph, and its total weight is minimal among all
such paths (given non-negative edge weights); and when no such path
exists, `dijkstra` returns `null`. -/
theorem dijkstra_correct (g : Graph) (s e : ℕ)
    (hs : s ∈ g.nodes.map Node.id) (he : e ∈ g.nodes.map Node.id)
    (hw : ∀ ed ∈ g.edges, 0 ≤ ed.weight) :
    (∀ P, dijkstra g s e = some P →
      IsPath g s e P ∧ ∃ c, pathCost g P = some c ∧
        ∀ Q cq, IsPath g s e Q → pathCost g Q = some cq → c ≤ cq) ∧
    ((¬ ∃ P, IsPath g s e P) → dijkstra g s e = none) := by
  obtain ⟨u', inv', hminor⟩ := dijkstraLoop_post g s e hw
    (initUnvisited g).length (initUnvisited g)
    (dijkstraInitDist s) dijkstraInitPrev rfl (DInv_init g s)
  set dres := dijkstraLoop g e (initUnvisited g).length (initUnvisited g)
    (dijkstraInitDist s) dijkstraInitPrev with hdres
  have hdij : dijkstra g s e =
      (if 1 < (reconstructPathAux dres.2 g.nodes.length e []).length
       then some (reconstructPathAux dres.2 g.nodes.length e []) else none) := rfl
  cases hp : dres.2 e with
  | none =>
    have hrec : reconstructPathAux dres.2 g.nodes.length e [] = [e] :=
      reconstructPathAux_none dres.2 g.nodes.length e [] hp
    rw [hrec] at hdij
    refine ⟨?_, ?_⟩
    · intro P hP
      rw [hdij, if_neg (by simp)] at hP
      exact Option.noConfusion hP
    · intro _
      rw [hdij, if_neg (by simp)]
  | some c0 =>
    obtain ⟨he0, hc00, hc0u, e0, he0m, hconn0, cy, hdy, hdxe⟩ :=
      inv'.hprev e c0 hp
    obtain ⟨t, ht1, ht2⟩ := inv'.hrank
    obtain ⟨L', hchain', hlen', hlast', hwalk', hmem', hcost'⟩ :=
      DInv_chain g s u' dres.1 dres.2 inv' t ht2 (t c0 + 1) c0
        (Nat.lt_succ_self _) hc00 hc0u
    have hLchain : PrevChainR dres.2 e (L' ++ [e]) :=
      PrevChainR.step e c0 L' hp hchain'
    have htc0 : t c0 < (initUnvisited g).length - u'.length := ht1 c0 hc00 hc0u
    have hfuelok : (L' ++ [e]).length ≤ g.nodes.length + 1 := by
      rw [List.length_append, List.length_singleton]
      have h1 := initUnvisited_length_le g
      omega
    have hrec : reconstructPathAux dres.2 g.nodes.length e [] = L' ++ [e] := by
      rw [reconstructPathAux_eq_chain dres.2 hLchain g.nodes.length [] hfuelok]
      exact List.append_nil _
    have hLpos : 1 ≤ L'.length := PrevChainR_length_pos dres.2 hchain'
    have hlen2 : 2 ≤ (L' ++ [e]).length := by
      rw [List.length_append, List.length_singleton]
      omega
    have hdijv : dijkstra g s e = some (L' ++ [e]) := by
      rw [hdij, hrec, if_pos (by omega)]
    have hwalkL : IsWalk g s e (L' ++ [e]) :=
      IsWalk_snoc g s c0 e L' hwalk' ⟨e0, he0m, hconn0⟩ he
    have hpathL : IsPath g s e (L' ++ [e]) := ⟨hwalkL, hlen2⟩
    obtain ⟨cL', hpc', hle'⟩ := hcost' cy hdy
    obtain ⟨w, hsw, hwle⟩ := stepWeight_le g c0 e e0 he0m hconn0
    have hpcL : pathCost g (L' ++ [e]) = some (cL' + w) :=
      pathCost_append g L' c0 e cL' w hlast' hpc' hsw
    have hboundL : cL' + w ≤ cy + e0.weight := add_le_add hle' hwle
    have hminprop : ∀ ce, dres.1 e = some ce →
        ∀ W cw, IsWalk g s e W → pathCost g W = some cw → ce ≤ cw := by
      rcases hminor with hnone | hmp
      · rw [hp] at hnone
        exact Option.noConfusion hnone
      · exact hmp
    refine ⟨?_, ?_⟩
    · intro P hP
      rw [hdijv] at hP
      obtain rfl := Option.some.inj hP
      refine ⟨hpathL, cL' + w, hpcL, ?_⟩
      intro Q cq hQ hcq
      exact hboundL.trans (hminprop (cy + e0.weight) hdxe Q cq hQ.1 hcq)
    · intro hnone
      exact absurd ⟨L' ++ [e], hpathL⟩ hnone

/-- C1 witness: on a concrete graph with an expensive direct edge and a
cheap two-hop route, the solver returns the cheap route, and the
theorem's guarantees are available for it. -/
theorem dijkstra_correct_witness :
    dijkstra exGraph 0 2 = some [0, 1, 2] ∧
    (IsPath exGraph 0 2 [0, 1, 2] ∧ ∃ c, pathCost exGraph [0, 1, 2] = some c ∧
      ∀ Q cq, IsPath exGraph 0 2 Q → pathCost exGraph Q = some cq → c ≤ cq) := by
  have hrun : dijkstra exGraph 0 2 = some [0, 1, 2] :=
    of_decide_eq_true (by with_unfolding_all rfl)
  have hw : ∀ ed ∈ exGraph.edges, 0 ≤ ed.weight :=
    of_decide_eq_true (by with_unfolding_all rfl)
  exact ⟨hrun,
    (dijkstra_correct exGraph 0 2 (by decide) (by decide) hw).1 [0, 1, 2] hrun⟩

/-! ## Claim C8: the early exit is invisible -/

/-- One unfolding of the exhaustive loop. -/
theorem dijkstraLoopFull_succ (g : Graph) (fuel : ℕ) (u : List ℕ)
    (d : ℕ → Option ℚ) (p : ℕ → Option ℕ) :
    dijkstraLoopFull g (fuel + 1) u d p =
      if u.isEmpty then (d, p)
      else
        match findMinNode d u with
        | none => (d, p)
        | some current =>
          let dp := relaxAll g.edges current (u.erase current) (d, p)
          dijkstraLoopFull g fuel (u.erase current) dp.1 dp.2 := rfl

/-- Nodes outside the unvisited set are never touched again by the
exhaustive loop. -/
theorem dijkstraLoopFull_preserves (g : Graph) :
    ∀ (fuel : ℕ) (u : List ℕ) (d : ℕ → Option ℚ) (p : ℕ → Option ℕ) (x : ℕ),
      x ∉ u →
      (dijkstraLoopFull g fuel u d p).1 x = d x ∧
      (dijkstraLoopFull g fuel u d p).2 x = p x := by
  intro fuel
  induction fuel with
  | zero => intro u d p x _; exact ⟨rfl, rfl⟩
  | succ n ih =>
    intro u d p x hx
    by_cases hemp : u.isEmpty = true
    · have : dijkstraLoopFull g (n + 1) u d p = (d, p) := by
        rw [dijkstraLoopFull_succ, if_pos hemp]
      rw [this]
      exact ⟨rfl, rfl⟩
    · cases hfm : findMinNode d u with
      | none =>
        have : dijkstraLoopFull g (n + 1) u d p = (d, p) := by
          rw [dijkstraLoopFull_succ, if_neg hemp, hfm]
        rw [this]
        exact ⟨rfl, rfl⟩
      | some c =>
        have hloopeq : dijkstraLoopFull g (n + 1) u d p =
            dijkstraLoopFull g n (u.erase c)
              (relaxAll g.edges c (u.erase c) (d, p)).1
              (relaxAll g.edges c (u.erase c) (d, p)).2 := by
          rw [dijkstraLoopFull_succ, if_neg hemp, hfm]
        rw [hloopeq]
        have hxe : x ∉ u.erase c := fun hmem => hx (List.erase_subset c u hmem)
        obtain ⟨h1, h2⟩ := ih (u.erase c) _ _ x hxe
        obtain ⟨h3, h4⟩ := relaxAll_untouched c (u.erase c) g.edges (d, p) x hxe
        exact ⟨h1.trans h3, h2.trans h4⟩

theorem PrevChainR_congr (p q : ℕ → Option ℕ) :
    ∀ {x : ℕ} {L : List ℕ}, PrevChainR p x L → (∀ z ∈ L, q z = p z) →
      PrevChainR q x L := by
  intro x L h
  induction h with
  | base x hx =>
    intro hagree
    exact PrevChainR.base x ((hagree x (List.mem_singleton_self x)).trans hx)
  | step x y L hx hchain ih =>
    intro hagree
    refine PrevChainR.step x y L ?_ (ih fun z hz =>
      hagree z (List.mem_append.mpr (Or.inl hz)))
    exact (hagree x (List.mem_append.mpr (Or.inr (List.mem_singleton_self x)))).trans hx

/-- The early-exit loop and the exhaustive loop produce the same
reconstructed path: after the destination is selected, the exhaustive
loop only ever modifies entries of still-unvisited nodes, which the
reconstruction never reads. -/
theorem loops_agree (g : Graph) (s e : ℕ)
    (hw : ∀ ed ∈ g.edges, 0 ≤ ed.weight) :
    ∀ (fuel : ℕ) (u : List ℕ) (d : ℕ → Option ℚ) (p : ℕ → Option ℕ),
      fuel = u.length → DInv g s u d p →
      reconstructPathAux (dijkstraLoop g e fuel u d p).2 g.nodes.length e [] =
      reconstructPathAux (dijkstraLoopFull g fuel u d p).2 g.nodes.length e [] := by
  intro fuel
  induction fuel with
  | zero => intro u d p _ _; rfl
  | succ n ih =>
    intro u d p hlen inv
    have hne : u ≠ [] := fun h => by
      rw [h] at hlen
      exact Nat.noConfusion hlen
    have hnemp : ¬ (u.isEmpty = true) := by simpa [List.isEmpty_iff] using hne
    cases hfm : findMinNode d u with
    | none =>
      have h1 : dijkstraLoop g e (n + 1) u d p = (d, p) := by
        rw [dijkstraLoop_succ, if_neg hnemp, hfm]
      have h2 : dijkstraLoopFull g (n + 1) u d p = (d, p) := by
        rw [dijkstraLoopFull_succ, if_neg hnemp, hfm]
      rw [h1, h2]
    | some c =>
      obtain ⟨hcu, dc, hdc, hmin⟩ := findMinNode_spec d u c hfm
      have hfull : dijkstraLoopFull g (n + 1) u d p =
          dijkstraLoopFull g n (u.erase c)
            (relaxAll g.edges c (u.erase c) (d, p)).1
            (relaxAll g.edges c (u.erase c) (d, p)).2 := by
        rw [dijkstraLoopFull_succ, if_neg hnemp, hfm]
      by_cases hcise : c = e
      · subst hcise
        have hA : dijkstraLoop g c (n + 1) u d p = (d, p) := by
          rw [dijkstraLoop_succ, if_neg hnemp, hfm]
          show (if c = c then (d, p) else _) = (d, p)
          rw [if_pos rfl]
        rw [hA, hfull]
        have hnodup : u.Nodup := List.Nodup.sublist inv.hsub (initUnvisited_nodup g)
        have hcerase : c ∉ u.erase c := fun h => (hnodup.mem_erase_iff.mp h).1 rfl
        have hagree : ∀ z, z ∉ u.erase c →
            (dijkstraLoopFull g n (u.erase c)
              (relaxAll g.edges c (u.erase c) (d, p)).1
              (relaxAll g.edges c (u.erase c) (d, p)).2).2 z = p z := by
          intro z hz
          obtain ⟨_, h2⟩ := dijkstraLoopFull_preserves g n (u.erase c)
            (relaxAll g.edges c (u.erase c) (d, p)).1
            (relaxAll g.edges c (u.erase c) (d, p)).2 z hz
          obtain ⟨_, h4⟩ := relaxAll_untouched c (u.erase c) g.edges (d, p) z hz
          exact h2.trans h4
        cases hp : p c with
        | none =>
          rw [reconstructPathAux_none p _ c [] hp,
            reconstructPathAux_none _ _ c [] ((hagree c hcerase).trans hp)]
        | some c0 =>
          obtain ⟨hc0', hc00, hc0u, e0, he0m, hconn0, cy, hdy, hdxe⟩ :=
            inv.hprev c c0 hp
          obtain ⟨t, ht1, ht2⟩ := inv.hrank
          obtain ⟨L', hchain', hlen', hlast', hwalk', hmem', hcost'⟩ :=
            DInv_chain g s u d p inv t ht2 (t c0 + 1) c0
              (Nat.lt_succ_self _) hc00 hc0u
          have hLchain : PrevChainR p c (L' ++ [c]) :=
            PrevChainR.step c c0 L' hp hchain'
          have htc0 := ht1 c0 hc00 hc0u
          have hfuelok : (L' ++ [c]).length ≤ g.nodes.length + 1 := by
            rw [List.length_append, List.length_singleton]
            have := initUnvisited_length_le g
            omega
          have hmemL : ∀ z ∈ L' ++ [c], z ∉ u.erase c := by
            intro z hz
            rcases List.mem_append.mp hz with hz | hz
            · exact fun hmem => (hmem' z hz).2 (List.erase_subset c u hmem)
            · rw [List.mem_singleton.mp hz]
              exact hcerase
          have hBchain : PrevChainR
              (dijkstraLoopFull g n (u.erase c)
                (relaxAll g.edges c (u.erase c) (d, p)).1
                (relaxAll g.edges c (u.erase c) (d, p)).2).2 c (L' ++ [c]) :=
            PrevChainR_congr p _ hLchain (fun z hz => hagree z (hmemL z hz))
          rw [reconstructPathAux_eq_chain p hLchain g.nodes.length [] hfuelok,
            reconstructPathAux_eq_chain _ hBchain g.nodes.length [] hfuelok]
      · have hA : dijkstraLoop g e (n + 1) u d p =
            dijkstraLoop g e n (u.erase c)
              (relaxAll g.edges c (u.erase c) (d, p)).1
              (relaxAll g.edges c (u.erase c) (d, p)).2 := by
          rw [dijkstraLoop_succ, if_neg hnemp, hfm]
          show (if c = e then (d, p) else _) = _
          rw [if_neg hcise]
        rw [hA, hfull]
        have hstep := DInv_step g s hw u d p inv c hfm
        have hlen' : n = (u.erase c).length := by
          rw [List.length_erase_of_mem hcu, ← hlen]
          omega
        exact ih (u.erase c) _ _ hlen' hstep

/-- C8: removing the early exit does not change the solver's answer:
for distinct node ids of the graph and non-negative edge weights, the
early-exit solver and the run-to-exhaustion solver return the same
result. -/
theorem dijkstra_earlyExit_eq_full (g : Graph) (s e : ℕ)
    (hs : s ∈ g.nodes.map Node.id) (he : e ∈ g.nodes.map Node.id)
    (hne : s ≠ e) (hw : ∀ ed ∈ g.edges, 0 ≤ ed.weight) :
    dijkstra g s e = dijkstraFull g s e := by
  have hrec := loops_agree g s e hw (initUnvisited g).length (initUnvisited g)
    (dijkstraInitDist s) dijkstraInitPrev rfl (DInv_init g s)
  show (if 1 < (reconstructPathAux
      (dijkstraLoop g e (initUnvisited g).length (initUnvisited g)
        (dijkstraInitDist s) dijkstraInitPrev).2 g.nodes.length e []).length
    then some (reconstructPathAux
      (dijkstraLoop g e (initUnvisited g).length (initUnvisited g)
        (dijkstraInitDist s) dijkstraInitPrev).2 g.nodes.length e [])
    else none) =
    (if 1 < (reconstructPathAux
      (dijkstraLoopFull g (initUnvisited g).length (initUnvisited g)
        (dijkstraInitDist s) dijkstraInitPrev).2 g.nodes.length e []).length
    then some (reconstructPathAux
      (dijkstraLoopFull g (initUnvisited g).length (initUnvisited g)
        (dijkstraInitDist s) dijkstraInitPrev).2 g.nodes.length e [])
    else none)
  rw [hrec]

/-- C8 witness: the two solvers agree on a concrete graph and pair. -/
theorem dijkstra_earlyExit_eq_full_witness :
    dijkstra exGraph 0 2 = dijkstraFull exGraph 0 2 :=
  dijkstra_earlyExit_eq_full exGraph 0 2 (by decide) (by decide) (by decide)
    (of_decide_eq_true (by with_unfolding_all rfl))
